import Mathlib

/-!
Verification of the graph/JSON codec of the `draw-io-with-ai` repository.

Shallow embedding of `src/utils/graphDataConverter.ts` and
`src/services/aiService.ts`.  Strings are modelled as `List Char`
(`String.data`); JavaScript numbers are modelled exactly: every number the
program ever produces comes from `Number(string)`, so the reachable values
are finite decimals `m / 10^e`, the two infinities and `NaN`.  We represent
them by the inductive `JsNum` below and keep parses canonical
(`e = 0 ∨ m % 10 ≠ 0`), which also identifies `-0` with `0` exactly as the
program's `===`-based value equality does.  The decimal printer writes the
plain positional form; JavaScript's switch to exponent notation for
`|x| ≥ 1e21` or `|x| < 1e-6` changes only the spelling, not the value
recovered by a re-parse, and no claim depends on that spelling.
-/

namespace DrawIo

/-! ## Characters, whitespace, digits -/

/-- The whitespace characters trimmed by JavaScript's `String.prototype.trim`
(restricted to the ASCII range; the style strings in play are ASCII). -/
def isJsSpace (c : Char) : Bool :=
  c = ' ' || c = '\t' || c = '\n' || c = '\r' || c = '\x0b' || c = '\x0c'

/-- Model of `String.prototype.trim` on character lists: drop whitespace from both ends. -/
def trimL (l : List Char) : List Char :=
  ((l.dropWhile isJsSpace).reverse.dropWhile isJsSpace).reverse

def isDigitC (c : Char) : Bool :=
  '0' ≤ c && c ≤ '9'

def digitVal (c : Char) : Nat := c.toNat - 48

def digitChar (d : Nat) : Char := Char.ofNat (48 + d)

/-- Read a digit list (most significant first) as a natural number. -/
def readNatAcc (l : List Char) (acc : Nat) : Nat :=
  l.foldl (fun a c => 10 * a + digitVal c) acc

/-- Decimal digits of `n`, most significant first, via explicit fuel so that
the definition is structural and kernel-reducible. -/
def natDigitsAux : Nat → Nat → List Char
  | 0, _ => []
  | fuel + 1, n =>
    if n = 0 then [] else natDigitsAux fuel (n / 10) ++ [digitChar (n % 10)]

def natDigits (n : Nat) : List Char :=
  if n = 0 then ['0'] else natDigitsAux (n + 1) n

/-! ## JavaScript numbers -/

/-- The JavaScript number values reachable in this program.
`fin m e` denotes `m / 10^e`. -/
inductive JsNum where
  | fin (m : Int) (e : Nat)
  | inf
  | negInf
  | nan
deriving DecidableEq, Repr

/-- Strip common factors of ten: `canonFin m e` is `fin m e` rewritten with
the smallest possible exponent.  Structural recursion on `e`. -/
def canonFin (m : Int) : Nat → JsNum
  | 0 => .fin m 0
  | e + 1 => if m % 10 = 0 then canonFin (m / 10) e else .fin m (e + 1)

/-- Build the finite number `m · 10^e10` in canonical form. -/
def mkFin (m : Int) (e10 : Int) : JsNum :=
  match e10 with
  | .ofNat k => .fin (m * (10 : Int) ^ k) 0
  | .negSucc k => canonFin m (k + 1)

/-- A finite `JsNum` in the normal form produced by `mkFin`. -/
def JsCanon : JsNum → Prop
  | .fin _ 0 => True
  | .fin m (_ + 1) => m % 10 ≠ 0
  | _ => True

instance : DecidablePred JsCanon := fun n =>
  match n with
  | .fin _ 0 => inferInstanceAs (Decidable True)
  | .fin m (_ + 1) => inferInstanceAs (Decidable (m % 10 ≠ 0))
  | .inf => inferInstanceAs (Decidable True)
  | .negInf => inferInstanceAs (Decidable True)
  | .nan => inferInstanceAs (Decidable True)

/-! ### The model of `Number(string)`

`jsToNumber` models the ECMAScript string-to-number conversion used by
`parseStyleValue` (`Number(value)`), covering the grammar the program can
meet: leading/trailing whitespace, the empty string (value `0`), signed
decimal literals with optional fraction and exponent, `Infinity`, and the
unsigned `0x`/`0o`/`0b` integer literals.  Anything else is `NaN`. -/

def readNatBase (base : Nat) (dv : Char → Nat) (l : List Char) : Nat :=
  l.foldl (fun a c => base * a + dv c) 0

def isHexDigitC (c : Char) : Bool :=
  isDigitC c || ('a' ≤ c && c ≤ 'f') || ('A' ≤ c && c ≤ 'F')

def hexVal (c : Char) : Nat :=
  if isDigitC c then digitVal c
  else if 'a' ≤ c && c ≤ 'f' then c.toNat - 87
  else c.toNat - 55

def isOctDigitC (c : Char) : Bool := '0' ≤ c && c ≤ '7'

def isBinDigitC (c : Char) : Bool := c = '0' || c = '1'

/-- Parse the exponent part after the `e`/`E`: optional sign, then a
non-empty run of digits consuming the rest of the input. -/
def parseExpPart (l : List Char) : Option Int :=
  match l with
  | '+' :: r => if r ≠ [] && r.all isDigitC then some (readNatAcc r 0 : Int) else none
  | '-' :: r => if r ≠ [] && r.all isDigitC then some (-(readNatAcc r 0 : Int)) else none
  | r => if r ≠ [] && r.all isDigitC then some (readNatAcc r 0 : Int) else none

/-- After the decimal point: integer digits, fraction digits, and what
remains after the fraction digits (an optional exponent part). -/
def parseFracTail (intDs fracDs r3 : List Char) : Option (Nat × Int) :=
  if intDs = [] && fracDs = [] then none
  else
    match r3 with
    | [] => some (readNatAcc (intDs ++ fracDs) 0, -(fracDs.length : Int))
    | 'e' :: r4 =>
      (parseExpPart r4).map fun ex => (readNatAcc (intDs ++ fracDs) 0, ex - fracDs.length)
    | 'E' :: r4 =>
      (parseExpPart r4).map fun ex => (readNatAcc (intDs ++ fracDs) 0, ex - fracDs.length)
    | _ => none

/-- After the leading digit run `intDs`, dispatch on what follows: end of
input, a decimal point, or an exponent marker. -/
def parseDecAfter (intDs rest : List Char) : Option (Nat × Int) :=
  match rest with
  | [] => if intDs = [] then none else some (readNatAcc intDs 0, 0)
  | '.' :: r2 =>
    parseFracTail intDs (r2.takeWhile isDigitC) (r2.drop (r2.takeWhile isDigitC).length)
  | 'e' :: r4 =>
    if intDs = [] then none
    else (parseExpPart r4).map fun ex => (readNatAcc intDs 0, ex)
  | 'E' :: r4 =>
    if intDs = [] then none
    else (parseExpPart r4).map fun ex => (readNatAcc intDs 0, ex)
  | _ => none

/-- Parse an unsigned decimal literal `digits [. digits] [exp]` /
`. digits [exp]`; returns mantissa value and base-10 exponent. -/
def parseDecBody (l : List Char) : Option (Nat × Int) :=
  parseDecAfter (l.takeWhile isDigitC) (l.drop (l.takeWhile isDigitC).length)

/-- Parse a signed decimal literal or `Infinity`. -/
def parseSignedDec (l : List Char) : Option JsNum :=
  match l with
  | '-' :: r =>
    if r = ['I', 'n', 'f', 'i', 'n', 'i', 't', 'y'] then some .negInf
    else (parseDecBody r).map fun p => mkFin (-(p.1 : Int)) p.2
  | '+' :: r =>
    if r = ['I', 'n', 'f', 'i', 'n', 'i', 't', 'y'] then some .inf
    else (parseDecBody r).map fun p => mkFin (p.1 : Int) p.2
  | r =>
    if r = ['I', 'n', 'f', 'i', 'n', 'i', 't', 'y'] then some .inf
    else (parseDecBody r).map fun p => mkFin (p.1 : Int) p.2

/-- The conversion applied to the already-trimmed string: the empty string
is `0`, then the non-decimal integer literal forms, then signed decimal. -/
def jsToNumberT (t : List Char) : JsNum :=
  if t = [] then .fin 0 0
  else
    match t with
    | '0' :: 'x' :: r =>
      if r ≠ [] && r.all isHexDigitC then .fin (readNatBase 16 hexVal r : Int) 0 else .nan
    | '0' :: 'X' :: r =>
      if r ≠ [] && r.all isHexDigitC then .fin (readNatBase 16 hexVal r : Int) 0 else .nan
    | '0' :: 'o' :: r =>
      if r ≠ [] && r.all isOctDigitC then .fin (readNatBase 8 digitVal r : Int) 0 else .nan
    | '0' :: 'O' :: r =>
      if r ≠ [] && r.all isOctDigitC then .fin (readNatBase 8 digitVal r : Int) 0 else .nan
    | '0' :: 'b' :: r =>
      if r ≠ [] && r.all isBinDigitC then .fin (readNatBase 2 digitVal r : Int) 0 else .nan
    | '0' :: 'B' :: r =>
      if r ≠ [] && r.all isBinDigitC then .fin (readNatBase 2 digitVal r : Int) 0 else .nan
    | t' => (parseSignedDec t').getD .nan

/-- The model of `Number(s)` for a string `s`: trim, then convert. -/
def jsToNumber (s : List Char) : JsNum := jsToNumberT (trimL s)

/-- The model of `isNaN(n)` for an already-converted number. -/
def jsIsNaN : JsNum → Bool
  | .nan => true
  | _ => false

/-- The unsigned decimal spelling of `a / 10^e1`: the digits of `a` with a
decimal point `e1` places from the right, zero-padded on the left as
needed. -/
def decBody (a e1 : Nat) : List Char :=
  if (natDigits a).length ≤ e1 then
    '0' :: '.' :: (List.replicate (e1 - (natDigits a).length) '0' ++ natDigits a)
  else
    (natDigits a).take ((natDigits a).length - e1) ++
      '.' :: (natDigits a).drop ((natDigits a).length - e1)

/-- The model of `String(n)` for a number: sign, then the digits of the
mantissa with a decimal point inserted `e` places from the right. -/
def jsNumToString : JsNum → List Char
  | .nan => ['N', 'a', 'N']
  | .inf => ['I', 'n', 'f', 'i', 'n', 'i', 't', 'y']
  | .negInf => ['-', 'I', 'n', 'f', 'i', 'n', 'i', 't', 'y']
  | .fin m 0 =>
    if m < 0 then '-' :: natDigits m.natAbs else natDigits m.natAbs
  | .fin m (e + 1) =>
    if m < 0 then '-' :: decBody m.natAbs (e + 1) else decBody m.natAbs (e + 1)

/-! ## The style codec (`parseStyle` / `formatStyle`)

`CellStyle` is the TypeScript object `{[key: string]: any}` restricted to the
values the codec can actually store; it is an insertion-ordered association
list, `styleSet` being the JavaScript property assignment (update in place
when the key exists, append otherwise).  `Object.entries` iterates in that
order. -/

/-- The values a style entry can hold: the coercions of `parseStyleValue`
plus the `undefined`/`null` cases that `formatStyle` filters out. -/
inductive StyleValue where
  | bool (b : Bool)
  | num (n : JsNum)
  | str (s : List Char)
  | undef
  | null
deriving DecidableEq, Repr

instance : Inhabited StyleValue := ⟨.undef⟩

abbrev CellStyle : Type := List (List Char × StyleValue)

/-- JavaScript property assignment `style[key] = v` on an insertion-ordered
record: overwrite in place, else append. -/
def styleSet : CellStyle → List Char → StyleValue → CellStyle
  | [], k, v => [(k, v)]
  | kv0 :: rest, k, v =>
    if kv0.1 = k then (k, v) :: rest else kv0 :: styleSet rest k v

/-- Model of `String.prototype.split` with a one-character separator. -/
def splitOnChar (sep : Char) : List Char → List (List Char)
  | [] => [[]]
  | c :: cs =>
    if c = sep then [] :: splitOnChar sep cs
    else
      match splitOnChar sep cs with
      | [] => [[c]]
      | p :: ps => (c :: p) :: ps

/-- Model of `Array.prototype.join` with a one-character separator. -/
def joinSep (sep : Char) : List (List Char) → List Char
  | [] => []
  | [x] => x
  | x :: y :: xs => x ++ sep :: joinSep sep (y :: xs)

/-- Source function `parseStyleValue(value)`: `"true"`/`"false"` become booleans, then
`!isNaN(Number(value))` turns the string into `Number(value)`, and anything
else stays a string. -/
def parseStyleValue (v : List Char) : StyleValue :=
  if v = ['t', 'r', 'u', 'e'] then .bool true
  else if v = ['f', 'a', 'l', 's', 'e'] then .bool false
  else if jsIsNaN (jsToNumber v) = false then .num (jsToNumber v)
  else .str v

/-- One step of the `parts.forEach` of `parseStyle`: destructure the part's
`split('=')` into its first two components (`const [key, value] = ...`), and
for truthy key and value store `parseStyleValue(value.trim())` under
`key.trim()`. -/
def parseStylePart (st : CellStyle) (part : List Char) : CellStyle :=
  match splitOnChar '=' part with
  | key :: value :: _ =>
    if key ≠ [] && value ≠ [] then
      styleSet st (trimL key) (parseStyleValue (trimL value))
    else st
  | _ => st

/-- Source function `parseStyle(styleStr)`: early-out on the empty string,
split on `;`, then fold the per-part step over an initially empty style. -/
def parseStyleL (s : List Char) : CellStyle :=
  if s = [] then [] else (splitOnChar ';' s).foldl parseStylePart []

def parseStyle (s : String) : CellStyle := parseStyleL s.data

/-- Model of `String(v)` for a style value (only reached for defined, non-null
values). -/
def styleValueToString : StyleValue → List Char
  | .bool true => ['t', 'r', 'u', 'e']
  | .bool false => ['f', 'a', 'l', 's', 'e']
  | .num n => jsNumToString n
  | .str s => s
  | .undef => ['u', 'n', 'd', 'e', 'f', 'i', 'n', 'e', 'd']
  | .null => ['n', 'u', 'l', 'l']

/-- The `key=value` segment one entry contributes, or nothing for an
`undefined`/`null` value. -/
def formatEntry (kv : List Char × StyleValue) : Option (List Char) :=
  match kv.2 with
  | .undef => none
  | .null => none
  | v => some (kv.1 ++ '=' :: styleValueToString v)

/-- Source function `formatStyle(style)`: push `key=value` for every entry whose value is
neither `undefined` nor `null`, then join with `;`. -/
def formatStyleL (st : CellStyle) : List Char :=
  joinSep ';'
    (st.foldl
      (fun parts kv =>
        match formatEntry kv with
        | some seg => parts ++ [seg]
        | none => parts)
      [])

def formatStyle (st : CellStyle) : String := ⟨formatStyleL st⟩

/-! ## The Document (JSON wire format) -/

inductive CellType where
  | vertex
  | edge
deriving DecidableEq, Repr

/-- One element of the serialized `cells` array (`GraphCell` in the
source). -/
structure GraphCell where
  id : String
  type : CellType
  value : String
  gx : JsNum
  gy : JsNum
  gw : JsNum
  gh : JsNum
  style : CellStyle
  source : Option String := none
  target : Option String := none
  parent : Option String := none
deriving DecidableEq, Repr

structure Viewport where
  scale : JsNum
  tx : JsNum
  ty : JsNum
deriving DecidableEq, Repr

/-- The serializable Document (`GraphData` in the source). -/
structure GraphData where
  cells : List GraphCell
  viewport : Option Viewport := none
deriving DecidableEq, Repr

/-! ## The live model

A minimal state model of the mxGraph widget as this program uses it:
`graph.insertVertex` / `graph.insertEdge` append a child to the root's
children and return the new cell's handle; `graph.removeCells` deletes;
the view holds scale and translate.  An edge handle stores the resolved
endpoint vertices, never their ids — which is exactly why the import needs
its id-to-handle map. -/

structure LVertex where
  id : String
  value : String
  x : JsNum
  y : JsNum
  w : JsNum
  h : JsNum
  style : List Char
deriving DecidableEq, Repr

structure LEdge where
  id : String
  value : String
  style : List Char
  src : LVertex
  tgt : LVertex
deriving DecidableEq, Repr

inductive LiveCell where
  | vert (v : LVertex)
  | edge (e : LEdge)
deriving DecidableEq, Repr

structure LiveGraph where
  cells : List LiveCell
  defaultParentId : String
  scale : JsNum
  tx : JsNum
  ty : JsNum
deriving DecidableEq, Repr

/-- The live vertex that `insertVertex(graph, cellData, parent)` creates
from a document cell: its id, value, geometry, and the formatted style
string. -/
def mkLVertex (cd : GraphCell) : LVertex :=
  { id := cd.id, value := cd.value, x := cd.gx, y := cd.gy,
    w := cd.gw, h := cd.gh, style := formatStyleL cd.style }

/-- The live edge that `insertEdge(graph, cellData, parent, source, target)`
creates from a document cell and two resolved endpoint handles. -/
def mkLEdge (cd : GraphCell) (src tgt : LVertex) : LEdge :=
  { id := cd.id, value := cd.value, style := formatStyleL cd.style,
    src := src, tgt := tgt }

/-- Source function `insertVertex(graph, cellData, parent)`: format the style and call the
widget's `graph.insertVertex` with the document cell's id, value and
geometry; returns the updated graph and the new live handle. -/
def insertVertex (g : LiveGraph) (cd : GraphCell) : LiveGraph × LVertex :=
  let v := mkLVertex cd
  ({ g with cells := g.cells ++ [.vert v] }, v)

/-- Source function `insertEdge(graph, cellData, parent, source, target)`. -/
def insertEdge (g : LiveGraph) (cd : GraphCell) (src tgt : LVertex) :
    LiveGraph × LEdge :=
  let e := mkLEdge cd src tgt
  ({ g with cells := g.cells ++ [.edge e] }, e)

/-- The `idMap` object of the import: id → live handle, with JavaScript
assignment (a later write to the same key wins).  Represented with the most
recent write in front, so `lookup` finds it. -/
abbrev IdMap : Type := List (String × LVertex)

def idMapSet (m : IdMap) (k : String) (v : LVertex) : IdMap := (k, v) :: m

def idMapGet (m : IdMap) (k : String) : Option LVertex :=
  match m.find? (fun kv => kv.1 = k) with
  | some kv => some kv.2
  | none => none

/-- The `clearExisting` step: `graph.removeCells(root.children.slice())`
removes every root-level cell. -/
def importClear (g : LiveGraph) (clearExisting : Bool) : LiveGraph :=
  if clearExisting then { g with cells := [] } else g

/-- Pass 1 of the import: for every vertex cell, insert a live vertex and
record `idMap[cellData.id] = cell`. -/
def importPass1 (g : LiveGraph) (cells : List GraphCell) : LiveGraph × IdMap :=
  cells.foldl
    (fun (st : LiveGraph × IdMap) cellData =>
      if cellData.type = .vertex then
        ((insertVertex st.1 cellData).1,
          idMapSet st.2 cellData.id (insertVertex st.1 cellData).2)
      else st)
    (g, [])

/-- Pass 2 of the import: for every edge cell with truthy `source` and
`target`, look both up in the pass-1 map and insert the live edge when both
resolve. -/
def importPass2 (g : LiveGraph) (m : IdMap) (cells : List GraphCell) : LiveGraph :=
  cells.foldl
    (fun (st : LiveGraph) cellData =>
      if cellData.type = .edge then
        match cellData.source, cellData.target with
        | some s, some t =>
          if s ≠ "" && t ≠ "" then
            match idMapGet m s, idMapGet m t with
            | some src, some tgt => (insertEdge st cellData src tgt).1
            | _, _ => st
          else st
        | _, _ => st
      else st)
    g

/-- Both passes over the same `cells` array, pass 2 reading the id map that
pass 1 built. -/
def importPasses (g : LiveGraph) (cells : List GraphCell) : LiveGraph :=
  importPass2 (importPass1 g cells).1 (importPass1 g cells).2 cells

/-- The final step: restore the viewport if the Document carries one. -/
def applyViewport (g : LiveGraph) (vp : Option Viewport) : LiveGraph :=
  match vp with
  | some vp => { g with scale := vp.scale, tx := vp.tx, ty := vp.ty }
  | none => g

/-- Source function `importGraphFromJSON(graph, data, clearExisting)`: optionally clear,
then pass 1 creates every vertex cell recording `idMap[id] = handle`, pass
2 creates every edge cell whose `source`/`target` are truthy and resolve in
`idMap`, and finally the viewport is applied if present. -/
def importGraphFromJSON (g : LiveGraph) (data : GraphData)
    (clearExisting : Bool := true) : LiveGraph :=
  applyViewport (importPasses (importClear g clearExisting) data.cells) data.viewport

/-! ### The import, factored

The following definitions name the two passes' ingredients so that theorems
can speak about them; `importGraphFromJSON` is proved below to be exactly
their composition. -/

/-- The id-to-handle map built by pass 1, starting from an earlier map
state: a vertex cell writes `idMap[id] = handle`. -/
def docIdMapFrom (m : IdMap) (cells : List GraphCell) : IdMap :=
  cells.foldl
    (fun m cd => if cd.type = .vertex then idMapSet m cd.id (mkLVertex cd) else m)
    m

def docIdMap (cells : List GraphCell) : IdMap := docIdMapFrom [] cells

/-- What pass 2 does with one document cell: the edge it creates, if any. -/
def edgeStep (m : IdMap) (cd : GraphCell) : Option LEdge :=
  if cd.type = .edge then
    match cd.source, cd.target with
    | some s, some t =>
      if s ≠ "" && t ≠ "" then
        match idMapGet m s, idMapGet m t with
        | some src, some tgt => some (mkLEdge cd src tgt)
        | _, _ => none
      else none
    | _, _ => none
  else none

/-- The edges an import of these document cells creates. -/
def docNewEdges (cells : List GraphCell) : List LEdge :=
  cells.filterMap (edgeStep (docIdMap cells))

/-- The live vertices an import of these document cells creates, in array
order. -/
def vertCellsOf (cells : List GraphCell) : List LiveCell :=
  (cells.filter (fun cd => cd.type = .vertex)).map (fun cd => LiveCell.vert (mkLVertex cd))

/-- Whether a live cell is an edge. -/
def isLiveEdge : LiveCell → Bool
  | .edge _ => true
  | .vert _ => false

/-! ## Export (`cellToJSON` / `exportGraphToJSON`) -/

/-- The duck-typed view of a live mxCell as `cellToJSON` probes it: the
optional accessors (`isEdge?.()`, `getId?.()`, …) are collapsed into
optional fields, `none` standing for an absent method / `undefined`
result. -/
structure MxCell where
  isEdgeF : Bool
  isVertexF : Bool
  geometry : Option (JsNum × JsNum × JsNum × JsNum)
  styleStr : Option (List Char)
  id : Option String
  value : Option String
  parentId : Option String
  sourceId : Option String
  targetId : Option String
deriving DecidableEq, Repr

/-- JavaScript number truthiness: `0` (hence also `-0`) and `NaN` are
falsy. -/
def jsNumFalsy (n : JsNum) : Bool :=
  n = .fin 0 0 || n = .nan

/-- Expression `geometry.x || 0` — a falsy component defaults to 0. -/
def geomComp (n : JsNum) : JsNum := if jsNumFalsy n then .fin 0 0 else n

/-- Expression `str || undefined` on an optional string: the empty string collapses to
`undefined`. -/
def orUndef (s : Option String) : Option String :=
  match s with
  | some v => if v = "" then none else some v
  | none => none

/-- The fields shared by the vertex and edge cases of `cellToJSON`'s
output record. -/
def cellToJSONBase (c : MxCell) : GraphCell :=
  { id := c.id.getD ""
    type := if c.isEdgeF then .edge else .vertex
    value := c.value.getD ""
    gx := match c.geometry with | some g => geomComp g.1 | none => .fin 0 0
    gy := match c.geometry with | some g => geomComp g.2.1 | none => .fin 0 0
    gw := match c.geometry with | some g => geomComp g.2.2.1 | none => .fin 0 0
    gh := match c.geometry with | some g => geomComp g.2.2.2 | none => .fin 0 0
    style := parseStyleL (c.styleStr.getD [])
    parent := orUndef c.parentId }

/-- Source function `cellToJSON(cell)`: `null` for a missing cell or one that is neither
edge nor vertex; otherwise id/value defaulted to `''`, geometry defaulted
to zeros when absent and component-wise `|| 0` when present, the style
string parsed, and for edges the endpoint ids read off the connected
handles (`|| undefined`). -/
def cellToJSON (cell : Option MxCell) : Option GraphCell :=
  match cell with
  | none => none
  | some c =>
    if c.isEdgeF = false && c.isVertexF = false then none
    else
      if c.isEdgeF then
        some { cellToJSONBase c with
          source := orUndef c.sourceId, target := orUndef c.targetId }
      else some (cellToJSONBase c)

/-- How a live cell presents itself to `cellToJSON`'s duck-typed probes. -/
def liveToMx (g : LiveGraph) : LiveCell → MxCell
  | .vert v =>
    { isEdgeF := false, isVertexF := true,
      geometry := some (v.x, v.y, v.w, v.h),
      styleStr := some v.style, id := some v.id, value := some v.value,
      parentId := some g.defaultParentId, sourceId := none, targetId := none }
  | .edge e =>
    { isEdgeF := true, isVertexF := false,
      geometry := none,
      styleStr := some e.style, id := some e.id, value := some e.value,
      parentId := some g.defaultParentId,
      sourceId := some e.src.id, targetId := some e.tgt.id }

/-- Source function `exportGraphToJSON(graph)`: convert every root-level child with
`cellToJSON`, keeping the non-null results, and capture the viewport. -/
def exportGraphToJSON (g : LiveGraph) : GraphData :=
  { cells := g.cells.filterMap (fun c => cellToJSON (some (liveToMx g c)))
    viewport := some { scale := g.scale, tx := g.tx, ty := g.ty } }

/-! ## AI response validation (`aiService.ts`)

`validateAIResponse` is given an arbitrary parsed JSON value, so we embed a
small dynamic value universe with JavaScript truthiness, property access
and short-circuit `&&` (which returns its first falsy operand). -/

inductive JSValue where
  | undef
  | null
  | bool (b : Bool)
  | num (n : JsNum)
  | str (s : String)
  | arr (elems : List JSValue)
  | obj (fields : List (String × JSValue))

/-- JavaScript truthiness. -/
def jsTruthy : JSValue → Bool
  | .undef => false
  | .null => false
  | .bool b => b
  | .num n => !jsNumFalsy n
  | .str s => s ≠ ""
  | .arr _ => true
  | .obj _ => true

/-- Short-circuit `a && b` returns `a` when `a` is falsy, else `b`. -/
def jsAnd (a b : JSValue) : JSValue := if jsTruthy a then b else a

/-- Property access `v.k` as it occurs in `validateAIResponse` (the
receiver is only dereferenced after a truthiness guard, so the
`undefined`/`null` throw cases are unreachable; absent properties and
non-object receivers give `undefined`). -/
def jsGet (v : JSValue) (k : String) : JSValue :=
  match v with
  | .obj fields =>
    match fields.find? (fun f => f.1 = k) with
    | some f => f.2
    | none => .undef
  | _ => .undef

def jsIsArray : JSValue → Bool
  | .arr _ => true
  | _ => false

def jsTypeofIsString : JSValue → Bool
  | .str _ => true
  | _ => false

/-- Whether a JavaScript value is the boolean literal `true`. -/
def jsIsTrue : JSValue → Bool
  | .bool true => true
  | _ => false

/-- Source function `validateAIResponse(response)`:
`response && response.diagram && Array.isArray(response.diagram.cells) &&
typeof response.description === 'string'`. -/
def validateAIResponse (response : JSValue) : JSValue :=
  jsAnd
    (jsAnd
      (jsAnd response (jsGet response "diagram"))
      (.bool (jsIsArray (jsGet (jsGet response "diagram") "cells"))))
    (.bool (jsTypeofIsString (jsGet response "description")))

/-! ## Infrastructure lemmas: split, join, trim, digits -/

theorem splitOnChar_ne_nil (sep : Char) (l : List Char) : splitOnChar sep l ≠ [] := by
  cases l with
  | nil => simp [splitOnChar]
  | cons c cs =>
    simp only [splitOnChar]
    split
    · simp
    · split <;> simp

theorem splitOnChar_eq_single (sep : Char) (l : List Char) (h : sep ∉ l) :
    splitOnChar sep l = [l] := by
  induction l with
  | nil => rfl
  | cons c cs ih =>
    have hc : c ≠ sep := fun e => h (e ▸ List.mem_cons_self c cs)
    have hcs : sep ∉ cs := fun m => h (List.mem_cons_of_mem c m)
    simp only [splitOnChar, if_neg hc, ih hcs]

theorem splitOnChar_append (sep : Char) (a b : List Char) (h : sep ∉ a) :
    splitOnChar sep (a ++ sep :: b) = a :: splitOnChar sep b := by
  induction a with
  | nil => simp [splitOnChar]
  | cons c cs ih =>
    have hc : c ≠ sep := fun e => h (e ▸ List.mem_cons_self c cs)
    have hcs : sep ∉ cs := fun m => h (List.mem_cons_of_mem c m)
    simp only [List.cons_append, splitOnChar, if_neg hc, List.append_eq, ih hcs]

theorem splitOnChar_joinSep (sep : Char) (parts : List (List Char)) (hne : parts ≠ [])
    (h : ∀ p ∈ parts, sep ∉ p) : splitOnChar sep (joinSep sep parts) = parts := by
  induction parts with
  | nil => exact absurd rfl hne
  | cons p ps ih =>
    cases ps with
    | nil =>
      simpa [joinSep] using splitOnChar_eq_single sep p (h p (List.mem_cons_self p []))
    | cons q qs =>
      have hp : sep ∉ p := h p (List.mem_cons_self _ _)
      have hrest : ∀ r ∈ q :: qs, sep ∉ r := fun r hr => h r (List.mem_cons_of_mem p hr)
      simp only [joinSep, splitOnChar_append sep p _ hp, ih (by simp) hrest]

theorem dropWhile_eq_self_of_head (p : Char → Bool) (l : List Char)
    (h : ∀ c, l.head? = some c → p c = false) : l.dropWhile p = l := by
  cases l with
  | nil => rfl
  | cons c cs => simp [List.dropWhile, h c rfl]

theorem dropWhile_head_false (p : Char → Bool) (l : List Char) (c : Char)
    (h : (l.dropWhile p).head? = some c) : p c = false := by
  induction l with
  | nil => simp [List.dropWhile] at h
  | cons d ds ih =>
    by_cases hd : p d
    · exact ih (by simpa [List.dropWhile, hd] using h)
    · simp [List.dropWhile, hd] at h
      simp [← h, Bool.eq_false_iff.mpr hd]

theorem dropWhile_getLast (p : Char → Bool) (l : List Char)
    (h : l.dropWhile p ≠ []) : (l.dropWhile p).getLast? = l.getLast? := by
  induction l with
  | nil => rfl
  | cons d ds ih =>
    by_cases hd : p d
    · have h2 : ds.dropWhile p ≠ [] := by simpa [List.dropWhile, hd] using h
      have hds : ds ≠ [] := by
        intro e
        subst e
        simp [List.dropWhile] at h2
      rw [show (d :: ds).dropWhile p = ds.dropWhile p by simp [List.dropWhile, hd], ih h2]
      cases ds with
      | nil => exact absurd rfl hds
      | cons e es => rw [List.getLast?_cons_cons]
    · simp [List.dropWhile, hd]

theorem trimL_eq_self_of_ends (l : List Char)
    (h1 : ∀ c, l.head? = some c → isJsSpace c = false)
    (h2 : ∀ c, l.getLast? = some c → isJsSpace c = false) : trimL l = l := by
  unfold trimL
  rw [dropWhile_eq_self_of_head _ l h1]
  rw [dropWhile_eq_self_of_head _ l.reverse (by simpa [List.head?_reverse] using h2)]
  exact List.reverse_reverse l

theorem mem_of_getLast?_eq (l : List Char) (c : Char) (h : l.getLast? = some c) : c ∈ l := by
  induction l with
  | nil => simp at h
  | cons d ds ih =>
    cases ds with
    | nil =>
      simp at h
      simp [h]
    | cons e es =>
      rw [List.getLast?_cons_cons] at h
      exact List.mem_cons_of_mem d (ih h)

theorem trimL_eq_self (l : List Char) (h : ∀ c ∈ l, isJsSpace c = false) : trimL l = l :=
  trimL_eq_self_of_ends l
    (fun c hc => h c (by cases l with | nil => simp at hc | cons d ds => simp at hc; simp [hc]))
    (fun c hc => h c (mem_of_getLast?_eq l c hc))

theorem trimL_idem (l : List Char) : trimL (trimL l) = trimL l := by
  rcases he : trimL l with _ | ⟨c, cs⟩
  · rfl
  · apply trimL_eq_self_of_ends
    · intro d hd
      have : (trimL l).head? = some d := by rw [he]; exact hd
      unfold trimL at this
      rw [List.head?_reverse] at this
      have h3 : (l.dropWhile isJsSpace).reverse.dropWhile isJsSpace ≠ [] := by
        intro e
        rw [e] at this
        simp at this
      rw [dropWhile_getLast _ _ h3, List.getLast?_reverse] at this
      exact dropWhile_head_false _ _ _ this
    · intro d hd
      have : (trimL l).getLast? = some d := by rw [he]; exact hd
      unfold trimL at this
      rw [List.getLast?_reverse] at this
      exact dropWhile_head_false _ _ _ this

theorem mem_of_mem_trimL {l : List Char} {c : Char} (h : c ∈ trimL l) : c ∈ l := by
  unfold trimL at h
  rw [List.mem_reverse] at h
  have h2 := (List.dropWhile_sublist (l := (l.dropWhile isJsSpace).reverse)
    (p := isJsSpace)).mem h
  rw [List.mem_reverse] at h2
  exact (List.dropWhile_sublist (l := l) (p := isJsSpace)).mem h2

theorem takeWhile_eq_self (p : Char → Bool) (l : List Char)
    (h : ∀ c ∈ l, p c = true) : l.takeWhile p = l := by
  induction l with
  | nil => rfl
  | cons c cs ih =>
    rw [List.takeWhile_cons, if_pos (h c (by simp)), ih fun d hd => h d (by simp [hd])]

theorem takeWhile_append_cons (p : Char → Bool) (a : List Char) (c : Char) (b : List Char)
    (ha : ∀ x ∈ a, p x = true) (hc : p c = false) :
    (a ++ c :: b).takeWhile p = a := by
  induction a with
  | nil => simp [List.takeWhile, hc]
  | cons d ds ih =>
    rw [List.cons_append, List.takeWhile_cons, if_pos (ha d (by simp)),
      ih fun x hx => ha x (by simp [hx])]

theorem readNatAcc_append (a b : List Char) (acc : Nat) :
    readNatAcc (a ++ b) acc = readNatAcc b (readNatAcc a acc) := by
  simp [readNatAcc, List.foldl_append]

theorem readNatAcc_zeros (k : Nat) (l : List Char) :
    readNatAcc (List.replicate k '0' ++ l) 0 = readNatAcc l 0 := by
  induction k with
  | zero => simp
  | succ n ih =>
    rw [List.replicate_succ, List.cons_append]
    show readNatAcc (List.replicate n '0' ++ l) (10 * 0 + digitVal '0') = readNatAcc l 0
    simpa [digitVal] using ih

theorem digitVal_digitChar (d : Nat) (h : d < 10) : digitVal (digitChar d) = d := by
  interval_cases d <;> rfl

theorem isDigitC_digitChar (d : Nat) (h : d < 10) : isDigitC (digitChar d) = true := by
  interval_cases d <;> rfl

theorem natDigitsAux_mem (fuel n : Nat) :
    ∀ c ∈ natDigitsAux fuel n, ∃ d, d < 10 ∧ c = digitChar d := by
  induction fuel generalizing n with
  | zero => simp [natDigitsAux]
  | succ f ih =>
    intro c hc
    unfold natDigitsAux at hc
    split at hc
    · simp at hc
    · rcases List.mem_append.mp hc with h | h
      · exact ih _ c h
      · simp at h
        exact ⟨n % 10, Nat.mod_lt _ (by norm_num), h⟩

theorem natDigits_mem (n : Nat) : ∀ c ∈ natDigits n, ∃ d, d < 10 ∧ c = digitChar d := by
  unfold natDigits
  split
  · intro c hc
    simp at hc
    exact ⟨0, by norm_num, by simp [hc]; rfl⟩
  · exact natDigitsAux_mem _ _

theorem natDigits_all_digit (n : Nat) : ∀ c ∈ natDigits n, isDigitC c = true := by
  intro c hc
  obtain ⟨d, hd, rfl⟩ := natDigits_mem n c hc
  exact isDigitC_digitChar d hd

theorem natDigits_ne_nil (n : Nat) : natDigits n ≠ [] := by
  unfold natDigits
  split
  · simp
  · rename_i h
    unfold natDigitsAux
    rw [if_neg h]
    simp

theorem natDigitsAux_spec (fuel : Nat) :
    ∀ n acc, n ≤ fuel →
      readNatAcc (natDigitsAux fuel n) acc = acc * 10 ^ (natDigitsAux fuel n).length + n := by
  induction fuel with
  | zero =>
    intro n acc h
    interval_cases n
    simp [natDigitsAux, readNatAcc]
  | succ f ih =>
    intro n acc h
    by_cases hn : n = 0
    · simp [natDigitsAux, hn, readNatAcc]
    · have hdiv : n / 10 ≤ f := by
        have : n / 10 < n := Nat.div_lt_self (Nat.pos_of_ne_zero hn) (by norm_num)
        omega
      rw [show natDigitsAux (f + 1) n = natDigitsAux f (n / 10) ++ [digitChar (n % 10)] by
        simp only [natDigitsAux]; rw [if_neg hn]]
      rw [readNatAcc_append, List.length_append]
      have h1 : readNatAcc [digitChar (n % 10)] (readNatAcc (natDigitsAux f (n / 10)) acc)
          = 10 * readNatAcc (natDigitsAux f (n / 10)) acc + n % 10 := by
        simp [readNatAcc, digitVal_digitChar _ (Nat.mod_lt _ (by norm_num))]
      rw [h1, ih _ acc hdiv]
      simp only [List.length_cons, List.length_nil]
      calc 10 * (acc * 10 ^ (natDigitsAux f (n / 10)).length + n / 10) + n % 10
          = acc * (10 ^ (natDigitsAux f (n / 10)).length * 10) + (10 * (n / 10) + n % 10) := by
            ring
        _ = acc * 10 ^ ((natDigitsAux f (n / 10)).length + (0 + 1)) + n := by
            rw [Nat.div_add_mod n 10, pow_succ]

theorem readNatAcc_natDigits (n : Nat) : readNatAcc (natDigits n) 0 = n := by
  unfold natDigits
  split
  · rename_i h
    simp [readNatAcc, digitVal, h]
  · rw [natDigitsAux_spec (n + 1) n 0 (by omega)]
    simp

/-! ## Character class facts -/

theorem ne_of_isDigitC (c d : Char) (h : isDigitC c = true) (hd : isDigitC d = false) :
    c ≠ d := fun e => by subst e; simp [h] at hd

theorem isJsSpace_false_of_digit (c : Char) (h : isDigitC c = true) :
    isJsSpace c = false := by
  by_contra hc
  rw [Bool.not_eq_false] at hc
  simp only [isJsSpace, Bool.or_eq_true, decide_eq_true_eq] at hc
  rcases hc with ((((rfl | rfl) | rfl) | rfl) | rfl) | rfl <;> simp [isDigitC] at h

/-! ## Canonical form lemmas -/

theorem jsCanon_canonFin (m : Int) (e : Nat) : JsCanon (canonFin m e) := by
  induction e generalizing m with
  | zero => simp [canonFin, JsCanon]
  | succ e ih =>
    rw [canonFin]
    split
    · exact ih _
    · rename_i h
      simpa [JsCanon] using h

theorem jsCanon_mkFin (m : Int) (e10 : Int) : JsCanon (mkFin m e10) := by
  cases e10 with
  | ofNat k => simp [mkFin, JsCanon]
  | negSucc k => exact jsCanon_canonFin m (k + 1)

theorem canonFin_eq_of_ne (m : Int) (e : Nat) (h : m % 10 ≠ 0) :
    canonFin m (e + 1) = .fin m (e + 1) := by
  rw [canonFin, if_neg h]

theorem mkFin_zero (m : Int) : mkFin m 0 = .fin m 0 := by
  show JsNum.fin (m * 10 ^ 0) 0 = .fin m 0
  norm_num

theorem parseSignedDec_canon (l : List Char) (n : JsNum)
    (h : parseSignedDec l = some n) : JsCanon n := by
  unfold parseSignedDec at h
  split at h <;>
    [skip; skip; skip] <;>
    · split at h
      · cases h
        trivial
      · obtain ⟨p, hp, rfl⟩ := Option.map_eq_some'.mp h
        exact jsCanon_mkFin _ _

theorem jsCanon_jsToNumberT (t : List Char) : JsCanon (jsToNumberT t) := by
  unfold jsToNumberT
  split
  · trivial
  · split
    · split <;> trivial
    · split <;> trivial
    · split <;> trivial
    · split <;> trivial
    · split <;> trivial
    · split <;> trivial
    · cases hp : parseSignedDec t with
      | none => simp [hp, Option.getD, JsCanon]
      | some n => simpa [hp] using parseSignedDec_canon t n hp

theorem jsCanon_jsToNumber (s : List Char) : JsCanon (jsToNumber s) :=
  jsCanon_jsToNumberT (trimL s)

/-! ## Number print/parse round trip -/

theorem jsToNumberT_not_special (t : List Char) (hne : t ≠ [])
    (hsh : ∀ c r, t = '0' :: c :: r → isDigitC c = true ∨ c = '.') :
    jsToNumberT t = (parseSignedDec t).getD .nan := by
  unfold jsToNumberT
  rw [if_neg hne]
  split
  · rcases hsh _ _ rfl with hd | hd <;> exact absurd hd (by decide)
  · rcases hsh _ _ rfl with hd | hd <;> exact absurd hd (by decide)
  · rcases hsh _ _ rfl with hd | hd <;> exact absurd hd (by decide)
  · rcases hsh _ _ rfl with hd | hd <;> exact absurd hd (by decide)
  · rcases hsh _ _ rfl with hd | hd <;> exact absurd hd (by decide)
  · rcases hsh _ _ rfl with hd | hd <;> exact absurd hd (by decide)
  · rfl

theorem parseDecBody_digits (ds : List Char) (hds : ∀ c ∈ ds, isDigitC c = true)
    (hne : ds ≠ []) : parseDecBody ds = some (readNatAcc ds 0, 0) := by
  rw [parseDecBody, takeWhile_eq_self _ _ hds, List.drop_length]
  simp [parseDecAfter, hne]

theorem parseDecBody_point (a b : List Char) (ha : ∀ c ∈ a, isDigitC c = true)
    (hb : ∀ c ∈ b, isDigitC c = true) (hne : a ≠ []) :
    parseDecBody (a ++ '.' :: b) = some (readNatAcc (a ++ b) 0, -(b.length : Int)) := by
  have ht : (a ++ '.' :: b).takeWhile isDigitC = a :=
    takeWhile_append_cons isDigitC a '.' b ha (by decide)
  rw [parseDecBody, ht, List.drop_left]
  rw [show parseDecAfter a ('.' :: b) =
    parseFracTail a (b.takeWhile isDigitC) (b.drop (b.takeWhile isDigitC).length) from rfl]
  rw [takeWhile_eq_self _ _ hb, List.drop_length]
  simp [parseFracTail, hne, readNatAcc_append]

theorem parseDecBody_decBody (a e1 : Nat) :
    parseDecBody (decBody a e1) = some (a, -(e1 : Int)) := by
  unfold decBody
  split
  · rename_i hlen
    rw [show ('0' :: '.' :: (List.replicate (e1 - (natDigits a).length) '0' ++ natDigits a)) =
      ['0'] ++ '.' :: (List.replicate (e1 - (natDigits a).length) '0' ++ natDigits a) from rfl]
    rw [parseDecBody_point ['0'] _ (by intro c hc; simp at hc; simp [hc, isDigitC])
      (by
        intro c hc
        rcases List.mem_append.mp hc with h | h
        · rw [List.eq_of_mem_replicate h]; rfl
        · exact natDigits_all_digit a c h)
      (by simp)]
    have hr : (['0'] : List Char) ++ (List.replicate (e1 - (natDigits a).length) '0' ++ natDigits a)
        = List.replicate (e1 - (natDigits a).length + 1) '0' ++ natDigits a := by
      rw [List.replicate_succ]
      rfl
    rw [hr, readNatAcc_zeros, readNatAcc_natDigits]
    have hl : (List.replicate (e1 - (natDigits a).length) '0' ++ natDigits a).length = e1 := by
      rw [List.length_append, List.length_replicate]
      omega
    rw [hl]
  · rename_i hlen
    push_neg at hlen
    have hk1 : 1 ≤ (natDigits a).length - e1 := by omega
    have hkle : (natDigits a).length - e1 ≤ (natDigits a).length := by omega
    rw [parseDecBody_point _ _
      (fun c hc => natDigits_all_digit a c (List.mem_of_mem_take hc))
      (fun c hc => natDigits_all_digit a c (List.mem_of_mem_drop hc))
      (by
        intro h
        have := congrArg List.length h
        rw [List.length_take] at this
        simp at this
        omega)]
    rw [List.take_append_drop, readNatAcc_natDigits]
    have hl : ((natDigits a).drop ((natDigits a).length - e1)).length = e1 := by
      rw [List.length_drop]
      omega
    rw [hl]

theorem decBody_head (a e1 : Nat) :
    ∃ c cs, decBody a e1 = c :: cs ∧ isDigitC c = true := by
  unfold decBody
  split
  · exact ⟨'0', _, rfl, by rfl⟩
  · rename_i hlen
    push_neg at hlen
    rcases hd : natDigits a with _ | ⟨c, cs⟩
    · exact absurd hd (natDigits_ne_nil a)
    · rw [show (c :: cs).length - e1 = ((c :: cs).length - e1 - 1) + 1 by
        rw [hd] at hlen; omega]
      rw [List.take_succ_cons, List.cons_append]
      exact ⟨c, _, rfl, natDigits_all_digit a c (hd ▸ List.mem_cons_self c cs)⟩

theorem decBody_chars (a e1 : Nat) :
    ∀ c ∈ decBody a e1, isDigitC c = true ∨ c = '.' := by
  intro c hc
  unfold decBody at hc
  split at hc
  · simp only [List.mem_cons] at hc
    rcases hc with rfl | rfl | hc
    · exact Or.inl (by rfl)
    · exact Or.inr rfl
    · rcases List.mem_append.mp hc with h | h
      · rw [List.eq_of_mem_replicate h]; exact Or.inl (by rfl)
      · exact Or.inl (natDigits_all_digit a c h)
  · rcases List.mem_append.mp hc with h | h
    · exact Or.inl (natDigits_all_digit a c (List.mem_of_mem_take h))
    · simp only [List.mem_cons] at h
      rcases h with rfl | h
      · exact Or.inr rfl
      · exact Or.inl (natDigits_all_digit a c (List.mem_of_mem_drop h))

theorem parseSignedDec_digit_head (c : Char) (cs : List Char) (hc : isDigitC c = true) :
    parseSignedDec (c :: cs) = (parseDecBody (c :: cs)).map fun p => mkFin (p.1 : Int) p.2 := by
  unfold parseSignedDec
  split
  · rename_i heq
    injection heq with h1 h2
    subst h1
    simp [isDigitC] at hc
  · rename_i heq
    injection heq with h1 h2
    subst h1
    simp [isDigitC] at hc
  · rw [if_neg]
    intro h
    injection h with h1 h2
    subst h1
    simp [isDigitC] at hc

theorem parseSignedDec_neg_digit_head (c : Char) (cs : List Char) (hc : isDigitC c = true) :
    parseSignedDec ('-' :: c :: cs) =
      (parseDecBody (c :: cs)).map fun p => mkFin (-(p.1 : Int)) p.2 := by
  show (if c :: cs = ['I', 'n', 'f', 'i', 'n', 'i', 't', 'y'] then some JsNum.negInf
    else (parseDecBody (c :: cs)).map fun p => mkFin (-(p.1 : Int)) p.2) = _
  rw [if_neg]
  intro h
  injection h with h1 h2
  subst h1
  simp [isDigitC] at hc

theorem neg_coe_succ (e : Nat) : -((e + 1 : Nat) : Int) = Int.negSucc e := by
  rfl

theorem mkFin_negSucc (m : Int) (e : Nat) : mkFin m (Int.negSucc e) = canonFin m (e + 1) := rfl

theorem natDigits_cons (a : Nat) :
    ∃ c cs, natDigits a = c :: cs ∧ isDigitC c = true := by
  rcases h : natDigits a with _ | ⟨c, cs⟩
  · exact absurd h (natDigits_ne_nil a)
  · exact ⟨c, cs, rfl, natDigits_all_digit a c (h ▸ List.mem_cons_self c cs)⟩

theorem jsNumToString_fin_chars (m : Int) (e : Nat) :
    ∀ c ∈ jsNumToString (.fin m e), isDigitC c = true ∨ c = '.' ∨ c = '-' := by
  intro c hc
  cases e with
  | zero =>
    simp only [jsNumToString] at hc
    split at hc
    · rcases List.mem_cons.mp hc with rfl | h
      · right; right; rfl
      · left; exact natDigits_all_digit _ _ h
    · left; exact natDigits_all_digit _ _ hc
  | succ e =>
    simp only [jsNumToString] at hc
    split at hc
    · rcases List.mem_cons.mp hc with rfl | h
      · right; right; rfl
      · rcases decBody_chars _ _ c h with h1 | h1
        · left; exact h1
        · right; left; exact h1
    · rcases decBody_chars _ _ c hc with h1 | h1
      · left; exact h1
      · right; left; exact h1

theorem jsNumToString_good (n : JsNum) :
    ∀ c ∈ jsNumToString n, isJsSpace c = false ∧ c ≠ ';' ∧ c ≠ '=' := by
  intro c hc
  cases n with
  | nan =>
    simp only [jsNumToString, List.mem_cons, List.not_mem_nil, or_false] at hc
    rcases hc with rfl | rfl | rfl <;> refine ⟨?_, ?_, ?_⟩ <;> decide
  | inf =>
    simp only [jsNumToString, List.mem_cons, List.not_mem_nil, or_false] at hc
    rcases hc with rfl | rfl | rfl | rfl | rfl | rfl | rfl | rfl <;>
      refine ⟨?_, ?_, ?_⟩ <;> decide
  | negInf =>
    simp only [jsNumToString, List.mem_cons, List.not_mem_nil, or_false] at hc
    rcases hc with rfl | rfl | rfl | rfl | rfl | rfl | rfl | rfl | rfl <;>
      refine ⟨?_, ?_, ?_⟩ <;> decide
  | fin m e =>
    rcases jsNumToString_fin_chars m e c hc with h | rfl | rfl
    · exact ⟨isJsSpace_false_of_digit c h, ne_of_isDigitC c ';' h (by decide),
        ne_of_isDigitC c '=' h (by decide)⟩
    · refine ⟨?_, ?_, ?_⟩ <;> decide
    · refine ⟨?_, ?_, ?_⟩ <;> decide

theorem jsNumToString_head (n : JsNum) :
    ∃ c cs, jsNumToString n = c :: cs ∧
      (isDigitC c = true ∨ c = '-' ∨ c = 'I' ∨ c = 'N') := by
  cases n with
  | nan => exact ⟨'N', _, rfl, by right; right; right; rfl⟩
  | inf => exact ⟨'I', _, rfl, by right; right; left; rfl⟩
  | negInf => exact ⟨'-', _, rfl, by right; left; rfl⟩
  | fin m e =>
    cases e with
    | zero =>
      simp only [jsNumToString]
      split
      · exact ⟨'-', _, rfl, by right; left; rfl⟩
      · obtain ⟨c, cs, hcs, hd⟩ := natDigits_cons m.natAbs
        exact ⟨c, cs, hcs, Or.inl hd⟩
    | succ e =>
      simp only [jsNumToString]
      split
      · exact ⟨'-', _, rfl, by right; left; rfl⟩
      · obtain ⟨c, cs, hcs, hd⟩ := decBody_head m.natAbs (e + 1)
        exact ⟨c, cs, hcs, Or.inl hd⟩

theorem jsNumToString_ne_nil (n : JsNum) : jsNumToString n ≠ [] := by
  obtain ⟨c, cs, h, _⟩ := jsNumToString_head n
  rw [h]
  simp

theorem jsNumToString_ne_bools (n : JsNum) :
    jsNumToString n ≠ ['t', 'r', 'u', 'e'] ∧
      jsNumToString n ≠ ['f', 'a', 'l', 's', 'e'] := by
  obtain ⟨c, cs, h, hd⟩ := jsNumToString_head n
  constructor <;>
    · rw [h]
      intro e
      injection e with e1 _
      subst e1
      rcases hd with hd | hd | hd | hd <;> exact absurd hd (by decide)

theorem jsToNumberT_print (n : JsNum) (hc : JsCanon n) (hn : n ≠ .nan) :
    jsToNumberT (jsNumToString n) = n := by
  cases n with
  | nan => exact absurd rfl hn
  | inf => decide
  | negInf => decide
  | fin m e =>
    cases e with
    | zero =>
      obtain ⟨c, cs, hcs, hdg⟩ := natDigits_cons m.natAbs
      by_cases hm : m < 0
      · have hp : jsNumToString (.fin m 0) = '-' :: natDigits m.natAbs := by
          simp only [jsNumToString, if_pos hm]
        rw [hp, jsToNumberT_not_special _ (by simp)
          (by intro c' r h; injection h with h1 _; exact absurd h1 (by decide))]
        rw [hcs, parseSignedDec_neg_digit_head c cs hdg, ← hcs,
          parseDecBody_digits _ (natDigits_all_digit _) (natDigits_ne_nil _),
          readNatAcc_natDigits]
        simp only [Option.map_some', Option.getD_some, mkFin_zero]
        congr 1
        omega
      · have hp : jsNumToString (.fin m 0) = natDigits m.natAbs := by
          simp only [jsNumToString, if_neg hm]
        rw [hp, jsToNumberT_not_special _ (natDigits_ne_nil _)
          (by
            intro c' r h
            have : c' ∈ natDigits m.natAbs := by rw [h]; simp
            exact Or.inl (natDigits_all_digit _ _ this))]
        rw [hcs, parseSignedDec_digit_head c cs hdg, ← hcs,
          parseDecBody_digits _ (natDigits_all_digit _) (natDigits_ne_nil _),
          readNatAcc_natDigits]
        simp only [Option.map_some', Option.getD_some, mkFin_zero]
        congr 1
        omega
    | succ e =>
      have hcm : m % 10 ≠ 0 := hc
      obtain ⟨c, cs, hcs, hdg⟩ := decBody_head m.natAbs (e + 1)
      by_cases hm : m < 0
      · have hp : jsNumToString (.fin m (e + 1)) = '-' :: decBody m.natAbs (e + 1) := by
          simp only [jsNumToString, if_pos hm]
        rw [hp, jsToNumberT_not_special _ (by simp)
          (by intro c' r h; injection h with h1 _; exact absurd h1 (by decide))]
        rw [hcs, parseSignedDec_neg_digit_head c cs hdg, ← hcs, parseDecBody_decBody]
        simp only [Option.map_some', Option.getD_some]
        rw [show -(((e + 1 : Nat)) : Int) = Int.negSucc e from rfl, mkFin_negSucc,
          show -((m.natAbs : Nat) : Int) = m by omega, canonFin_eq_of_ne _ _ hcm]
      · have hp : jsNumToString (.fin m (e + 1)) = decBody m.natAbs (e + 1) := by
          simp only [jsNumToString, if_neg hm]
        rw [hp, jsToNumberT_not_special _
          (by rw [hcs]; simp)
          (by
            intro c' r h
            have : c' ∈ decBody m.natAbs (e + 1) := by rw [h]; simp
            rcases decBody_chars _ _ c' this with h1 | h1
            · exact Or.inl h1
            · exact Or.inr h1)]
        rw [hcs, parseSignedDec_digit_head c cs hdg, ← hcs, parseDecBody_decBody]
        simp only [Option.map_some', Option.getD_some]
        rw [show -(((e + 1 : Nat)) : Int) = Int.negSucc e from rfl, mkFin_negSucc,
          show ((m.natAbs : Nat) : Int) = m by omega, canonFin_eq_of_ne _ _ hcm]

theorem jsToNumber_print (n : JsNum) (hc : JsCanon n) (hn : n ≠ .nan) :
    jsToNumber (jsNumToString n) = n := by
  unfold jsToNumber
  rw [trimL_eq_self _ (fun c hcm => (jsNumToString_good n c hcm).1)]
  exact jsToNumberT_print n hc hn

theorem jsIsNaN_eq_false (n : JsNum) (hn : n ≠ .nan) : jsIsNaN n = false := by
  cases n with
  | nan => exact absurd rfl hn
  | inf => rfl
  | negInf => rfl
  | fin m e => rfl

theorem parseStyleValue_numString (n : JsNum) (hc : JsCanon n) (hn : n ≠ .nan) :
    parseStyleValue (jsNumToString n) = .num n := by
  unfold parseStyleValue
  rw [if_neg (jsNumToString_ne_bools n).1, if_neg (jsNumToString_ne_bools n).2,
    jsToNumber_print n hc hn, if_pos (jsIsNaN_eq_false n hn)]

/-! ## Well-formedness of parsed styles -/

/-- The invariant every value stored by `parseStyle` satisfies. -/
def WFValue : StyleValue → Prop
  | .bool _ => True
  | .num n => JsCanon n ∧ n ≠ .nan
  | .str w => w ≠ [] ∧ trimL w = w ∧ (∀ c ∈ w, c ≠ ';' ∧ c ≠ '=') ∧
      w ≠ ['t', 'r', 'u', 'e'] ∧ w ≠ ['f', 'a', 'l', 's', 'e'] ∧ jsToNumber w = .nan
  | .undef => False
  | .null => False

/-- The invariant every key stored by `parseStyle` satisfies. -/
def WFKey (k : List Char) : Prop :=
  trimL k = k ∧ ∀ c ∈ k, c ≠ ';' ∧ c ≠ '='

/-- The invariant of a mapping produced by `parseStyle`. -/
def WFStyle (st : CellStyle) : Prop :=
  (∀ kv ∈ st, WFKey kv.1 ∧ WFValue kv.2) ∧ (st.map Prod.fst).Nodup

theorem mem_styleSet (st : CellStyle) (k : List Char) (v : StyleValue) :
    ∀ kv ∈ styleSet st k v, kv ∈ st ∨ kv = (k, v) := by
  induction st with
  | nil => intro kv h; simp [styleSet] at h; exact Or.inr h
  | cons kv0 rest ih =>
    intro kv h
    unfold styleSet at h
    split at h
    · rcases List.mem_cons.mp h with rfl | h
      · exact Or.inr rfl
      · exact Or.inl (List.mem_cons_of_mem _ h)
    · rcases List.mem_cons.mp h with rfl | h
      · exact Or.inl (List.mem_cons_self _ _)
      · rcases ih kv h with h1 | h1
        · exact Or.inl (List.mem_cons_of_mem _ h1)
        · exact Or.inr h1

theorem styleSet_keys (st : CellStyle) (k : List Char) (v : StyleValue) :
    (styleSet st k v).map Prod.fst =
      if k ∈ st.map Prod.fst then st.map Prod.fst else st.map Prod.fst ++ [k] := by
  induction st with
  | nil => simp [styleSet]
  | cons kv0 rest ih =>
    unfold styleSet
    split
    · rename_i heq
      simp [heq]
    · rename_i hne
      by_cases hmem : k ∈ rest.map Prod.fst
      · simp only [List.map_cons, ih, if_pos hmem]
        rw [if_pos (List.mem_cons_of_mem _ hmem)]
      · simp only [List.map_cons, ih, if_neg hmem]
        rw [if_neg (by
          intro h
          rcases List.mem_cons.mp h with e | h2
          · exact hne e.symm
          · exact hmem h2)]
        simp

theorem styleSet_nodup (st : CellStyle) (k : List Char) (v : StyleValue)
    (h : (st.map Prod.fst).Nodup) : ((styleSet st k v).map Prod.fst).Nodup := by
  rw [styleSet_keys]
  split
  · exact h
  · rename_i hmem
    rw [List.nodup_append]
    refine ⟨h, List.nodup_singleton k, ?_⟩
    intro a ha hb
    rw [List.mem_singleton] at hb
    exact hmem (hb ▸ ha)

theorem styleSet_not_mem (st : CellStyle) (k : List Char) (v : StyleValue)
    (h : k ∉ st.map Prod.fst) : styleSet st k v = st ++ [(k, v)] := by
  induction st with
  | nil => rfl
  | cons kv0 rest ih =>
    unfold styleSet
    rw [if_neg (by simp at h; exact fun e => h.1 e.symm)]
    rw [ih (by simp at h ⊢; exact h.2)]
    rfl

theorem splitOnChar_mem_not (sep : Char) (l : List Char) :
    ∀ p ∈ splitOnChar sep l, sep ∉ p := by
  induction l with
  | nil => intro p hp; simp [splitOnChar] at hp; simp [hp]
  | cons c cs ih =>
    intro p hp
    unfold splitOnChar at hp
    split at hp
    · rcases List.mem_cons.mp hp with rfl | hp
      · simp
      · exact ih p hp
    · rename_i hc
      rcases hsp : splitOnChar sep cs with _ | ⟨p0, ps⟩
      · exact absurd hsp (splitOnChar_ne_nil sep cs)
      · rw [hsp] at hp
        rcases List.mem_cons.mp hp with rfl | hp
        · intro hmem
          rcases List.mem_cons.mp hmem with rfl | hmem
          · exact hc rfl
          · exact ih p0 (hsp ▸ List.mem_cons_self p0 ps) hmem
        · exact ih p (hsp ▸ List.mem_cons_of_mem p0 hp)

theorem splitOnChar_mem_subset (sep : Char) (l : List Char) :
    ∀ p ∈ splitOnChar sep l, ∀ c ∈ p, c ∈ l := by
  induction l with
  | nil => intro p hp c hc; simp [splitOnChar] at hp; simp [hp] at hc
  | cons d cs ih =>
    intro p hp c hc
    unfold splitOnChar at hp
    split at hp
    · rcases List.mem_cons.mp hp with rfl | hp
      · simp at hc
      · exact List.mem_cons_of_mem d (ih p hp c hc)
    · rcases hsp : splitOnChar sep cs with _ | ⟨p0, ps⟩
      · exact absurd hsp (splitOnChar_ne_nil sep cs)
      · rw [hsp] at hp
        rcases List.mem_cons.mp hp with rfl | hp
        · rcases List.mem_cons.mp hc with rfl | hc
          · exact List.mem_cons_self c cs
          · exact List.mem_cons_of_mem d
              (ih p0 (hsp ▸ List.mem_cons_self p0 ps) c hc)
        · exact List.mem_cons_of_mem d
            (ih p (hsp ▸ List.mem_cons_of_mem p0 hp) c hc)

theorem wf_parseStyleValue (v : List Char) (hv : trimL v = v)
    (hchars : ∀ c ∈ v, c ≠ ';' ∧ c ≠ '=') : WFValue (parseStyleValue v) := by
  unfold parseStyleValue
  split
  · trivial
  · split
    · trivial
    · split
      · rename_i hnn
        refine ⟨jsCanon_jsToNumber v, ?_⟩
        intro e
        rw [e] at hnn
        simp [jsIsNaN] at hnn
      · rename_i ht hf hnn
        have hnan : jsToNumber v = .nan := by
          by_contra hne2
          exact hnn (jsIsNaN_eq_false _ hne2)
        refine ⟨?_, hv, hchars, ht, hf, hnan⟩
        intro e
        rw [e] at hnan
        simp [jsToNumber, trimL, jsToNumberT] at hnan

theorem wf_parseStylePart (st : CellStyle) (part : List Char) (hst : WFStyle st)
    (hpart : ';' ∉ part) : WFStyle (parseStylePart st part) := by
  unfold parseStylePart
  split
  · rename_i key value rest heq
    split
    · have hkmem : key ∈ splitOnChar '=' part := heq ▸ List.mem_cons_self _ _
      have hvmem : value ∈ splitOnChar '=' part :=
        heq ▸ List.mem_cons_of_mem _ (List.mem_cons_self _ _)
      have hkeq : ∀ c ∈ key, c ≠ ';' ∧ c ≠ '=' := fun c hc =>
        ⟨fun e => hpart (e ▸ splitOnChar_mem_subset '=' part key hkmem c hc),
         fun e => splitOnChar_mem_not '=' part key hkmem (e ▸ hc)⟩
      have hveq : ∀ c ∈ value, c ≠ ';' ∧ c ≠ '=' := fun c hc =>
        ⟨fun e => hpart (e ▸ splitOnChar_mem_subset '=' part value hvmem c hc),
         fun e => splitOnChar_mem_not '=' part value hvmem (e ▸ hc)⟩
      constructor
      · intro kv hkv
        rcases mem_styleSet st _ _ kv hkv with h | rfl
        · exact hst.1 kv h
        · refine ⟨⟨trimL_idem key, fun c hc => hkeq c (mem_of_mem_trimL hc)⟩, ?_⟩
          exact wf_parseStyleValue _ (trimL_idem value)
            (fun c hc => hveq c (mem_of_mem_trimL hc))
      · exact styleSet_nodup st _ _ hst.2
    · exact hst
  · exact hst

theorem wf_parse_foldl (parts : List (List Char)) (acc : CellStyle) (hacc : WFStyle acc)
    (hparts : ∀ p ∈ parts, ';' ∉ p) : WFStyle (parts.foldl parseStylePart acc) := by
  induction parts generalizing acc with
  | nil => exact hacc
  | cons p ps ih =>
    exact ih _ (wf_parseStylePart acc p hacc (hparts p (List.mem_cons_self _ _)))
      (fun q hq => hparts q (List.mem_cons_of_mem p hq))

theorem wf_parseStyleL (s : List Char) : WFStyle (parseStyleL s) := by
  unfold parseStyleL
  split
  · exact ⟨by simp, List.nodup_nil⟩
  · exact wf_parse_foldl _ [] ⟨by simp, List.nodup_nil⟩ (splitOnChar_mem_not ';' s)

/-! ## Formatting a well-formed style and parsing it back -/

theorem styleValueToString_good (v : StyleValue) (hv : WFValue v) :
    styleValueToString v ≠ [] ∧ trimL (styleValueToString v) = styleValueToString v ∧
      (∀ c ∈ styleValueToString v, c ≠ ';' ∧ c ≠ '=') ∧
      parseStyleValue (styleValueToString v) = v := by
  cases v with
  | bool b => cases b <;> exact ⟨by decide, by decide, by decide, by decide⟩
  | num n =>
    obtain ⟨hc, hn⟩ := hv
    exact ⟨jsNumToString_ne_nil n,
      trimL_eq_self _ (fun c hcm => (jsNumToString_good n c hcm).1),
      fun c hcm => ⟨(jsNumToString_good n c hcm).2.1, (jsNumToString_good n c hcm).2.2⟩,
      parseStyleValue_numString n hc hn⟩
  | str w =>
    obtain ⟨hne, htr, hch, ht, hf, hnan⟩ := hv
    refine ⟨hne, htr, hch, ?_⟩
    show parseStyleValue w = .str w
    unfold parseStyleValue
    rw [if_neg ht, if_neg hf, if_neg (by rw [hnan]; simp [jsIsNaN])]
  | undef => exact hv.elim
  | null => exact hv.elim

theorem format_foldl (st : CellStyle) (acc : List (List Char)) :
    st.foldl
        (fun parts kv =>
          match formatEntry kv with
          | some seg => parts ++ [seg]
          | none => parts)
        acc
      = acc ++ st.filterMap formatEntry := by
  induction st generalizing acc with
  | nil => simp
  | cons kv rest ih =>
    simp only [List.foldl_cons, List.filterMap_cons]
    cases h : formatEntry kv with
    | none => simp only [h, ih]
    | some seg =>
      simp only [h, ih]
      simp

theorem formatStyleL_eq (st : CellStyle) :
    formatStyleL st = joinSep ';' (st.filterMap formatEntry) := by
  unfold formatStyleL
  rw [format_foldl]
  simp

theorem formatEntry_defined (kv : List Char × StyleValue) (hv : WFValue kv.2) :
    formatEntry kv = some (kv.1 ++ '=' :: styleValueToString kv.2) := by
  rcases kv with ⟨k, v⟩
  cases v with
  | bool b => rfl
  | num n => rfl
  | str w => rfl
  | undef => exact hv.elim
  | null => exact hv.elim

theorem wf_filterMap_eq_map (st : CellStyle) (h : ∀ kv ∈ st, WFValue kv.2) :
    st.filterMap formatEntry =
      st.map (fun kv => kv.1 ++ '=' :: styleValueToString kv.2) := by
  induction st with
  | nil => rfl
  | cons kv rest ih =>
    rw [List.filterMap_cons, formatEntry_defined kv (h kv (List.mem_cons_self _ _)),
      List.map_cons, ih (fun kv2 h2 => h kv2 (List.mem_cons_of_mem _ h2))]

theorem joinSep_ne_nil (sep : Char) (parts : List (List Char)) (h1 : parts ≠ [])
    (h2 : ∀ p ∈ parts, p ≠ []) : joinSep sep parts ≠ [] := by
  cases parts with
  | nil => exact absurd rfl h1
  | cons p ps =>
    cases ps with
    | nil => exact h2 p (List.mem_cons_self _ _)
    | cons q qs =>
      show p ++ sep :: joinSep sep (q :: qs) ≠ []
      simp

theorem parse_fold_segments (rest : CellStyle) (acc : CellStyle)
    (hwf : ∀ kv ∈ rest, (WFKey kv.1 ∧ WFValue kv.2) ∧ kv.1 ≠ [])
    (hnd : (rest.map Prod.fst).Nodup)
    (hdisj : ∀ kv ∈ rest, kv.1 ∉ acc.map Prod.fst) :
    (rest.map (fun kv => kv.1 ++ '=' :: styleValueToString kv.2)).foldl parseStylePart acc
      = acc ++ rest := by
  induction rest generalizing acc with
  | nil => simp
  | cons kv rest ih =>
    obtain ⟨⟨⟨hktr, hkch⟩, hwv⟩, hkne⟩ := hwf kv (List.mem_cons_self _ _)
    obtain ⟨hsne, hstr, hsch, hsparse⟩ := styleValueToString_good kv.2 hwv
    have hkeq : '=' ∉ kv.1 := fun hm => (hkch _ hm).2 rfl
    have hseq : '=' ∉ styleValueToString kv.2 := fun hm => (hsch _ hm).2 rfl
    simp only [List.map_cons, List.foldl_cons]
    have hsplit : splitOnChar '=' (kv.1 ++ '=' :: styleValueToString kv.2) =
        [kv.1, styleValueToString kv.2] := by
      rw [splitOnChar_append '=' _ _ hkeq, splitOnChar_eq_single '=' _ hseq]
    have hstep : parseStylePart acc (kv.1 ++ '=' :: styleValueToString kv.2) =
        acc ++ [kv] := by
      unfold parseStylePart
      rw [hsplit]
      show (if (decide (kv.1 ≠ []) && decide (styleValueToString kv.2 ≠ [])) = true
          then styleSet acc (trimL kv.1) (parseStyleValue (trimL (styleValueToString kv.2)))
          else acc) = acc ++ [kv]
      rw [if_pos (by simp [hkne, hsne])]
      rw [hktr, hstr, hsparse, styleSet_not_mem _ _ _ (hdisj kv (List.mem_cons_self _ _))]
    rw [hstep, ih (acc ++ [kv])
      (fun kv2 h2 => hwf kv2 (List.mem_cons_of_mem _ h2))
      (by simpa using hnd.of_cons)
      (by
        intro kv2 h2
        rw [List.map_append, List.mem_append]
        rintro (h3 | h3)
        · exact hdisj kv2 (List.mem_cons_of_mem _ h2) h3
        · simp at h3
          have : kv.1 ∈ rest.map Prod.fst := h3 ▸ List.mem_map_of_mem Prod.fst h2
          exact (List.nodup_cons.mp (by simpa using hnd)).1 this)]
    simp

theorem parse_format_wf (st : CellStyle) (hwf : WFStyle st)
    (hkeys : ∀ kv ∈ st, kv.1 ≠ []) : parseStyleL (formatStyleL st) = st := by
  cases st with
  | nil => rfl
  | cons kv0 rest =>
    rw [formatStyleL_eq, wf_filterMap_eq_map _ (fun kv h => (hwf.1 kv h).2)]
    have hsegs_ne : (kv0 :: rest).map
        (fun kv => kv.1 ++ '=' :: styleValueToString kv.2) ≠ [] := by simp
    have hsegs_each : ∀ p ∈ (kv0 :: rest).map
        (fun kv => kv.1 ++ '=' :: styleValueToString kv.2), p ≠ [] := by
      intro p hp
      obtain ⟨kv, _, rfl⟩ := List.mem_map.mp hp
      simp
    have hsegs_nosemi : ∀ p ∈ (kv0 :: rest).map
        (fun kv => kv.1 ++ '=' :: styleValueToString kv.2), ';' ∉ p := by
      intro p hp
      obtain ⟨kv, hkv, rfl⟩ := List.mem_map.mp hp
      intro hm
      rcases List.mem_append.mp hm with h | h
      · exact ((hwf.1 kv hkv).1.2 ';' h).1 rfl
      · rcases List.mem_cons.mp h with h1 | h1
        · exact absurd h1 (by decide)
        · exact ((styleValueToString_good kv.2 (hwf.1 kv hkv).2).2.2.1 ';' h1).1 rfl
    unfold parseStyleL
    rw [if_neg (joinSep_ne_nil ';' _ hsegs_ne hsegs_each),
      splitOnChar_joinSep ';' _ hsegs_ne hsegs_nosemi]
    simpa using parse_fold_segments (kv0 :: rest) []
      (fun kv h => ⟨hwf.1 kv h, hkeys kv h⟩) hwf.2 (by simp)

/-! ## Normal form of the import -/

theorem importPass1_from (cells : List GraphCell) (g : LiveGraph) (m : IdMap) :
    cells.foldl
        (fun (st : LiveGraph × IdMap) cellData =>
          if cellData.type = .vertex then
            ((insertVertex st.1 cellData).1,
              idMapSet st.2 cellData.id (insertVertex st.1 cellData).2)
          else st)
        (g, m)
      = ({ g with cells := g.cells ++ vertCellsOf cells }, docIdMapFrom m cells) := by
  induction cells generalizing g m with
  | nil => simp [docIdMapFrom, vertCellsOf]
  | cons cd rest ih =>
    by_cases h : cd.type = .vertex
    · rw [List.foldl_cons, if_pos h]
      rw [show (insertVertex g cd).1 = { g with cells := g.cells ++ [.vert (mkLVertex cd)] }
        from rfl]
      rw [show (insertVertex g cd).2 = mkLVertex cd from rfl]
      rw [ih]
      rw [show docIdMapFrom m (cd :: rest)
        = docIdMapFrom (idMapSet m cd.id (mkLVertex cd)) rest by
          unfold docIdMapFrom
          rw [List.foldl_cons, if_pos h]]
      rw [show vertCellsOf (cd :: rest)
        = LiveCell.vert (mkLVertex cd) :: vertCellsOf rest by
          unfold vertCellsOf
          rw [List.filter_cons_of_pos (by simp [h]), List.map_cons]]
      simp
    · rw [List.foldl_cons, if_neg h, ih]
      rw [show docIdMapFrom m (cd :: rest) = docIdMapFrom m rest by
        unfold docIdMapFrom
        rw [List.foldl_cons, if_neg h]]
      rw [show vertCellsOf (cd :: rest) = vertCellsOf rest by
        unfold vertCellsOf
        rw [List.filter_cons_of_neg (by simp [h])]]

theorem importPass1_eq (g : LiveGraph) (cells : List GraphCell) :
    importPass1 g cells
      = ({ g with cells := g.cells ++ vertCellsOf cells }, docIdMap cells) := by
  unfold importPass1 docIdMap
  exact importPass1_from cells g []

theorem importPass2_step (st : LiveGraph) (m : IdMap) (cd : GraphCell) :
    (if cd.type = .edge then
        match cd.source, cd.target with
        | some s, some t =>
          if s ≠ "" && t ≠ "" then
            match idMapGet m s, idMapGet m t with
            | some src, some tgt => (insertEdge st cd src tgt).1
            | _, _ => st
          else st
        | _, _ => st
      else st)
      = match edgeStep m cd with
        | some e => { st with cells := st.cells ++ [.edge e] }
        | none => st := by
  unfold edgeStep
  by_cases h : cd.type = .edge
  · rw [if_pos h, if_pos h]
    cases cd.source with
    | none => rfl
    | some s =>
      cases cd.target with
      | none => rfl
      | some t =>
        by_cases hst : (decide (s ≠ "") && decide (t ≠ "")) = true
        · have hst2 : ¬s = "" ∧ ¬t = "" := by simpa using hst
          cases hms : idMapGet m s with
          | none => simp [hst2, hms]
          | some vs =>
            cases hmt : idMapGet m t with
            | none => simp [hst2, hms, hmt]
            | some vt => simp [hst2, hms, hmt, insertEdge]
        · have hst2 : ¬(¬s = "" ∧ ¬t = "") := by simpa using hst
          simp [hst2]
  · rw [if_neg h, if_neg h]

theorem importPass2_eq (cells : List GraphCell) (g : LiveGraph) (m : IdMap) :
    importPass2 g m cells
      = { g with cells := g.cells ++ (cells.filterMap (edgeStep m)).map LiveCell.edge } := by
  unfold importPass2
  induction cells generalizing g with
  | nil => simp
  | cons cd rest ih =>
    rw [List.foldl_cons, importPass2_step g m cd, List.filterMap_cons]
    cases h : edgeStep m cd with
    | none => rw [ih]
    | some e =>
      rw [ih]
      simp

theorem applyViewport_cells (g : LiveGraph) (vp : Option Viewport) :
    (applyViewport g vp).cells = g.cells := by
  cases vp <;> rfl

theorem importClear_cells (g : LiveGraph) (b : Bool) :
    (importClear g b).cells = if b then [] else g.cells := by
  cases b <;> rfl

/-- The import in normal form: the base cells (cleared or kept), then one
live vertex per vertex cell in array order, then one live edge per edge
cell that pass 2 accepts, in array order. -/
theorem importGraphFromJSON_cells (g : LiveGraph) (data : GraphData) (b : Bool) :
    (importGraphFromJSON g data b).cells =
      (if b then [] else g.cells)
        ++ vertCellsOf data.cells
        ++ (docNewEdges data.cells).map LiveCell.edge := by
  unfold importGraphFromJSON importPasses docNewEdges vertCellsOf
  rw [applyViewport_cells, importPass1_eq, importPass2_eq]
  simp [importClear_cells, vertCellsOf, List.append_assoc]

/-! ## Characterizing the id map -/

theorem idMapGet_set_ne (m : IdMap) (k : String) (v : LVertex) (s : String) (h : ¬k = s) :
    idMapGet (idMapSet m k v) s = idMapGet m s := by
  unfold idMapGet idMapSet
  simp [List.find?_cons, h]

theorem idMapGet_set_eq (m : IdMap) (k : String) (v : LVertex) :
    idMapGet (idMapSet m k v) k = some v := by
  unfold idMapGet idMapSet
  simp [List.find?_cons]

theorem idMapGet_docIdMapFrom (cells : List GraphCell) (m : IdMap) (s : String) :
    idMapGet (docIdMapFrom m cells) s =
      match (cells.reverse.find? (fun cd => cd.type = .vertex && cd.id = s)) with
      | some cd => some (mkLVertex cd)
      | none => idMapGet m s := by
  induction cells generalizing m with
  | nil => simp [docIdMapFrom]
  | cons cd rest ih =>
    rw [show docIdMapFrom m (cd :: rest)
      = docIdMapFrom (if cd.type = .vertex then idMapSet m cd.id (mkLVertex cd) else m) rest by
        unfold docIdMapFrom
        rw [List.foldl_cons]]
    rw [ih]
    rw [List.reverse_cons, List.find?_append]
    cases hf : rest.reverse.find? (fun cd => cd.type = .vertex && cd.id = s) with
    | some cd2 => simp
    | none =>
      simp only [Option.none_or]
      rw [List.find?_singleton]
      by_cases hv : cd.type = .vertex
      · by_cases hid : cd.id = s
        · rw [if_pos hv,
            if_pos (show (decide (cd.type = .vertex) && decide (cd.id = s)) = true by
              simp [hv, hid])]
          subst hid
          simp [idMapGet_set_eq]
        · rw [if_pos hv,
            if_neg (show ¬(decide (cd.type = .vertex) && decide (cd.id = s)) = true by
              simp [hid])]
          simp [idMapGet_set_ne m cd.id (mkLVertex cd) s hid]
      · rw [if_neg hv,
          if_neg (show ¬(decide (cd.type = .vertex) && decide (cd.id = s)) = true by
            simp [hv])]

theorem idMapGet_docIdMap (cells : List GraphCell) (s : String) :
    idMapGet (docIdMap cells) s =
      match (cells.reverse.find? (fun cd => cd.type = .vertex && cd.id = s)) with
      | some cd => some (mkLVertex cd)
      | none => none := by
  rw [docIdMap, idMapGet_docIdMapFrom]
  cases cells.reverse.find? (fun cd => cd.type = .vertex && cd.id = s) with
  | some cd => rfl
  | none => simp [idMapGet]

/-- A lookup in the pass-1 map succeeds exactly when some vertex cell of the
Document carries the id, and the handle found is always a vertex made from
such a cell. -/
theorem idMapGet_docIdMap_some (cells : List GraphCell) (s : String) (v : LVertex)
    (h : idMapGet (docIdMap cells) s = some v) :
    ∃ cd ∈ cells, cd.type = .vertex ∧ cd.id = s ∧ v = mkLVertex cd := by
  rw [idMapGet_docIdMap] at h
  cases hf : cells.reverse.find? (fun cd => cd.type = .vertex && cd.id = s) with
  | none => rw [hf] at h; simp at h
  | some cd =>
    rw [hf] at h
    have hmem : cd ∈ cells := by
      have := List.mem_of_find?_eq_some hf
      rwa [List.mem_reverse] at this
    have hp := List.find?_some hf
    simp only [Bool.and_eq_true, decide_eq_true_eq] at hp
    simp only [Option.some.injEq] at h
    exact ⟨cd, hmem, hp.1, hp.2, h.symm⟩

theorem idMapGet_docIdMap_isSome (cells : List GraphCell) (cd : GraphCell)
    (hmem : cd ∈ cells) (hv : cd.type = .vertex) :
    ∃ v, idMapGet (docIdMap cells) cd.id = some v := by
  rw [idMapGet_docIdMap]
  cases hf : cells.reverse.find? (fun cd2 => cd2.type = .vertex && cd2.id = cd.id) with
  | some cd2 => exact ⟨mkLVertex cd2, rfl⟩
  | none =>
    rw [List.find?_eq_none] at hf
    exact absurd (by simp [hv]) (hf cd (List.mem_reverse.mpr hmem))

/-! ## Structure of the split, and a first-equals characterization -/

theorem splitOnChar_structure (sep : Char) (l : List Char) :
    (sep ∉ l ∧ splitOnChar sep l = [l]) ∨
      (∃ a b, l = a ++ sep :: b ∧ sep ∉ a ∧
        splitOnChar sep l = a :: splitOnChar sep b) := by
  induction l with
  | nil => exact Or.inl ⟨by simp, rfl⟩
  | cons c cs ih =>
    by_cases hc : c = sep
    · subst hc
      exact Or.inr ⟨[], cs, rfl, by simp, by simp [splitOnChar]⟩
    · rcases ih with ⟨hmem, heq⟩ | ⟨a, b, hab, hmem, heq⟩
      · refine Or.inl ⟨?_, ?_⟩
        · intro h
          rcases List.mem_cons.mp h with h1 | h1
          · exact hc h1.symm
          · exact hmem h1
        · simp only [splitOnChar, if_neg hc, heq]
      · refine Or.inr ⟨c :: a, b, by simp [hab], ?_, ?_⟩
        · intro h
          rcases List.mem_cons.mp h with h1 | h1
          · exact hc h1.symm
          · exact hmem h1
        · simp only [splitOnChar, if_neg hc, heq]

theorem splitOnChar_head_takeWhile (sep : Char) (l : List Char) :
    ∃ tb, splitOnChar sep l = l.takeWhile (fun c => decide (c ≠ sep)) :: tb := by
  rcases splitOnChar_structure sep l with ⟨hmem, heq⟩ | ⟨a, b, hab, hmem, heq⟩
  · refine ⟨[], ?_⟩
    rw [heq, takeWhile_eq_self _ _ (fun c hc => by simp; exact fun e => hmem (e ▸ hc))]
  · refine ⟨splitOnChar sep b, ?_⟩
    rw [heq, hab, takeWhile_append_cons _ _ _ _
      (fun c hc => by simp; exact fun e => hmem (e ▸ hc)) (by simp)]

/-- The per-part step of `parseStyle` in first-and-second-component form:
the key is the text before the first `=`, the value the text between the
first and second `=`; a part contributes only when it contains an `=` and
both texts are nonempty. -/
theorem parseStylePart_takeWhile (st : CellStyle) (part : List Char) :
    parseStylePart st part =
      if (part.takeWhile (fun c => decide (c ≠ '='))).length < part.length
          ∧ part.takeWhile (fun c => decide (c ≠ '=')) ≠ []
          ∧ (part.drop ((part.takeWhile (fun c => decide (c ≠ '='))).length + 1)).takeWhile
              (fun c => decide (c ≠ '=')) ≠ [] then
        styleSet st (trimL (part.takeWhile (fun c => decide (c ≠ '='))))
          (parseStyleValue (trimL ((part.drop
            ((part.takeWhile (fun c => decide (c ≠ '='))).length + 1)).takeWhile
              (fun c => decide (c ≠ '=')))))
      else st := by
  rcases splitOnChar_structure '=' part with ⟨hmem, heq⟩ | ⟨a, b, hab, hmem, heq⟩
  · have htw : part.takeWhile (fun c => decide (c ≠ '=')) = part :=
      takeWhile_eq_self _ _ (fun c hc => by simp; exact fun e => hmem (e ▸ hc))
    rw [htw]
    unfold parseStylePart
    rw [heq, if_neg (by simp)]
  · have htw : part.takeWhile (fun c => decide (c ≠ '=')) = a := by
      rw [hab]
      exact takeWhile_append_cons _ _ _ _
        (fun c hc => by simp; exact fun e => hmem (e ▸ hc)) (by simp)
    have hdrop : part.drop (a.length + 1) = b := by
      rw [hab, show a.length + 1 = (a ++ ['=']).length by simp,
        show a ++ '=' :: b = (a ++ ['=']) ++ b by simp]
      exact List.drop_left _ _
    obtain ⟨tb, hsb⟩ := splitOnChar_head_takeWhile '=' b
    have hlen : a.length < part.length := by
      rw [hab]
      simp
    rw [htw, hdrop]
    unfold parseStylePart
    rw [heq, hsb]
    show (if (decide (a ≠ []) && decide ((b.takeWhile (fun c => decide (c ≠ '='))) ≠ [])) = true
        then styleSet st (trimL a)
          (parseStyleValue (trimL (b.takeWhile (fun c => decide (c ≠ '=')))))
        else st) = _
    by_cases ha : a = []
    · rw [if_neg (by rw [ha]; simp), if_neg (fun hcon => hcon.2.1 ha)]
    · by_cases hb : b.takeWhile (fun c => decide (c ≠ '=')) = []
      · rw [if_neg (by rw [hb]; simp), if_neg (fun hcon => hcon.2.2 hb)]
      · rw [if_pos (show (decide (a ≠ []) &&
            decide ((b.takeWhile (fun c => decide (c ≠ '='))) ≠ [])) = true by
              rw [Bool.and_eq_true, decide_eq_true_eq, decide_eq_true_eq]
              exact ⟨ha, hb⟩),
          if_pos ⟨hlen, ha, hb⟩]

/-- Where the binding keys of a parse fold come from: each was stored by
some processed part that had a nonempty second split component, under
the trim of its first split component. -/
theorem mem_parseStylePart (st : CellStyle) (part : List Char)
    (kv : List Char × StyleValue) (h : kv ∈ parseStylePart st part) :
    kv ∈ st ∨
      (kv.1 = trimL (part.takeWhile (fun c => decide (c ≠ '='))) ∧
        (part.drop ((part.takeWhile (fun c => decide (c ≠ '='))).length + 1)).takeWhile
            (fun c => decide (c ≠ '=')) ≠ []) := by
  rw [parseStylePart_takeWhile] at h
  split at h
  · rename_i hcond
    rcases mem_styleSet _ _ _ kv h with h1 | h1
    · exact Or.inl h1
    · exact Or.inr ⟨by rw [h1], hcond.2.2⟩
  · exact Or.inl h

theorem mem_parse_foldl (parts : List (List Char)) (acc : CellStyle)
    (kv : List Char × StyleValue) (h : kv ∈ parts.foldl parseStylePart acc) :
    kv ∈ acc ∨
      ∃ part ∈ parts,
        kv.1 = trimL (part.takeWhile (fun c => decide (c ≠ '='))) ∧
          (part.drop ((part.takeWhile (fun c => decide (c ≠ '='))).length + 1)).takeWhile
              (fun c => decide (c ≠ '=')) ≠ [] := by
  induction parts generalizing acc with
  | nil => exact Or.inl h
  | cons p ps ih =>
    rcases ih (parseStylePart acc p) h with h1 | ⟨part, hpm, hp⟩
    · rcases mem_parseStylePart acc p kv h1 with h2 | h2
      · exact Or.inl h2
      · exact Or.inr ⟨p, List.mem_cons_self _ _, h2⟩
    · exact Or.inr ⟨part, List.mem_cons_of_mem _ hpm, hp⟩

/-! ## Characterizing pass 2 -/

theorem edgeStep_some (m : IdMap) (cd : GraphCell) (e : LEdge)
    (h : edgeStep m cd = some e) :
    cd.type = .edge ∧ ∃ s t vs vt, cd.source = some s ∧ cd.target = some t ∧
      s ≠ "" ∧ t ≠ "" ∧ idMapGet m s = some vs ∧ idMapGet m t = some vt ∧
      e = mkLEdge cd vs vt := by
  unfold edgeStep at h
  by_cases htp : cd.type = .edge
  · rw [if_pos htp] at h
    refine ⟨htp, ?_⟩
    cases hs : cd.source with
    | none => rw [hs] at h; cases cd.target <;> exact absurd h (by simp)
    | some s =>
      cases ht : cd.target with
      | none => rw [hs, ht] at h; exact absurd h (by simp)
      | some t =>
        rw [hs, ht] at h
        have h2 : (if (decide (s ≠ "") && decide (t ≠ "")) = true then
            (match idMapGet m s, idMapGet m t with
              | some src, some tgt => some (mkLEdge cd src tgt)
              | _, _ => none)
            else none) = some e := h
        by_cases hst : (decide (s ≠ "") && decide (t ≠ "")) = true
        · rw [if_pos hst] at h2
          have hst2 : ¬s = "" ∧ ¬t = "" := by simpa using hst
          cases hms : idMapGet m s with
          | none => rw [hms] at h2; cases idMapGet m t <;> exact absurd h2 (by simp)
          | some vs =>
            cases hmt : idMapGet m t with
            | none => rw [hms, hmt] at h2; exact absurd h2 (by simp)
            | some vt =>
              rw [hms, hmt] at h2
              simp only [Option.some.injEq] at h2
              exact ⟨s, t, vs, vt, rfl, rfl, hst2.1, hst2.2, hms, hmt, h2.symm⟩
        · rw [if_neg hst] at h2
          exact absurd h2 (by simp)
  · rw [if_neg htp] at h
    exact absurd h (by simp)

theorem edgeStep_eq_none (m : IdMap) (cd : GraphCell)
    (h : cd.source = none ∨ cd.target = none ∨
      (∃ s, cd.source = some s ∧ idMapGet m s = none) ∨
      (∃ t, cd.target = some t ∧ idMapGet m t = none)) :
    edgeStep m cd = none := by
  unfold edgeStep
  by_cases htp : cd.type = .edge
  · rw [if_pos htp]
    cases hs : cd.source with
    | none => cases cd.target <;> rfl
    | some s =>
      cases ht : cd.target with
      | none => rfl
      | some t =>
        show (if (decide (s ≠ "") && decide (t ≠ "")) = true then
            (match idMapGet m s, idMapGet m t with
              | some src, some tgt => some (mkLEdge cd src tgt)
              | _, _ => none)
            else none) = none
        rcases h with h | h | ⟨s2, hs2, hm⟩ | ⟨t2, ht2, hm⟩
        · rw [hs] at h; cases h
        · rw [ht] at h; cases h
        · rw [hs] at hs2
          injection hs2 with hs2
          subst hs2
          rw [hm]
          split
          · cases idMapGet m t <;> rfl
          · rfl
        · rw [ht] at ht2
          injection ht2 with ht2
          subst ht2
          rw [hm]
          split
          · cases idMapGet m s <;> rfl
          · rfl
  · rw [if_neg htp]

/-- If some vertex cell of the Document carries both endpoint ids, the edge
step fires and connects two vertices carrying exactly those ids. -/
theorem edgeStep_fires (cells : List GraphCell) (ce : GraphCell) (s t : String)
    (htp : ce.type = .edge) (hs : ce.source = some s) (ht : ce.target = some t)
    (hsne : s ≠ "") (htne : t ≠ "")
    (hvs : ∃ vc ∈ cells, vc.type = .vertex ∧ vc.id = s)
    (hvt : ∃ vc ∈ cells, vc.type = .vertex ∧ vc.id = t) :
    ∃ vs vt, edgeStep (docIdMap cells) ce = some (mkLEdge ce vs vt) ∧
      vs.id = s ∧ vt.id = t := by
  obtain ⟨vcs, hvcs, hvcs2, hvcs3⟩ := hvs
  obtain ⟨vct, hvct, hvct2, hvct3⟩ := hvt
  obtain ⟨vs, hvsl⟩ := idMapGet_docIdMap_isSome cells vcs hvcs hvcs2
  obtain ⟨vt, hvtl⟩ := idMapGet_docIdMap_isSome cells vct hvct hvct2
  rw [hvcs3] at hvsl
  rw [hvct3] at hvtl
  obtain ⟨cds, hcds, hcds2, hcds3, hcds4⟩ := idMapGet_docIdMap_some cells s vs hvsl
  obtain ⟨cdt, hcdt, hcdt2, hcdt3, hcdt4⟩ := idMapGet_docIdMap_some cells t vt hvtl
  refine ⟨vs, vt, ?_, by rw [hcds4]; exact hcds3, by rw [hcdt4]; exact hcdt3⟩
  unfold edgeStep
  rw [if_pos htp, hs, ht]
  show (if (decide (s ≠ "") && decide (t ≠ "")) = true then
      (match idMapGet (docIdMap cells) s, idMapGet (docIdMap cells) t with
        | some src, some tgt => some (mkLEdge ce src tgt)
        | _, _ => none)
      else none) = some (mkLEdge ce vs vt)
  rw [if_pos (by simp [hsne, htne]), hvsl, hvtl]

/-! ## Export in closed form -/

/-- The document cell a live cell exports to. -/
def exportLive (g : LiveGraph) : LiveCell → GraphCell
  | .vert v =>
    { id := v.id, type := .vertex, value := v.value,
      gx := geomComp v.x, gy := geomComp v.y, gw := geomComp v.w, gh := geomComp v.h,
      style := parseStyleL v.style,
      source := none, target := none, parent := orUndef (some g.defaultParentId) }
  | .edge e =>
    { id := e.id, type := .edge, value := e.value,
      gx := .fin 0 0, gy := .fin 0 0, gw := .fin 0 0, gh := .fin 0 0,
      style := parseStyleL e.style,
      source := orUndef (some e.src.id), target := orUndef (some e.tgt.id),
      parent := orUndef (some g.defaultParentId) }

theorem cellToJSON_live (g : LiveGraph) (lc : LiveCell) :
    cellToJSON (some (liveToMx g lc)) = some (exportLive g lc) := by
  cases lc <;> rfl

theorem exportGraphToJSON_cells (g : LiveGraph) :
    (exportGraphToJSON g).cells = g.cells.map (exportLive g) := by
  unfold exportGraphToJSON
  show g.cells.filterMap (fun c => cellToJSON (some (liveToMx g c))) = _
  induction g.cells with
  | nil => rfl
  | cons lc rest ih =>
    rw [List.filterMap_cons, cellToJSON_live, List.map_cons, ih]

theorem exportLive_id (g : LiveGraph) (lc : LiveCell) :
    (exportLive g lc).id = match lc with | .vert v => v.id | .edge e => e.id := by
  cases lc <;> rfl

/-! ## Permutation invariance of pass 2 -/

theorem find?_perm_unique {α : Type} (p : α → Bool) (l1 l2 : List α) (hp : l1.Perm l2)
    (huniq : ∀ x ∈ l1, ∀ y ∈ l1, p x = true → p y = true → x = y) :
    l1.find? p = l2.find? p := by
  cases h1 : l1.find? p with
  | none =>
    cases h2 : l2.find? p with
    | none => rfl
    | some y =>
      have hy := List.find?_some h2
      have hymem := hp.mem_iff.mpr (List.mem_of_find?_eq_some h2)
      rw [List.find?_eq_none] at h1
      exact absurd hy (by simpa using h1 y hymem)
  | some x =>
    have hx := List.find?_some h1
    have hxmem := List.mem_of_find?_eq_some h1
    cases h2 : l2.find? p with
    | none =>
      rw [List.find?_eq_none] at h2
      exact absurd hx (by simpa using h2 x (hp.mem_iff.mp hxmem))
    | some y =>
      have hy := List.find?_some h2
      have hymem := hp.mem_iff.mpr (List.mem_of_find?_eq_some h2)
      rw [huniq x hxmem y hymem hx hy]

/-- With unique vertex ids, the id-to-handle map does not depend on the
order of the `cells` array. -/
theorem idMapGet_perm (cells1 cells2 : List GraphCell) (hp : cells1.Perm cells2)
    (hnd : ((cells1.filter (fun cd => cd.type = .vertex)).map GraphCell.id).Nodup)
    (s : String) :
    idMapGet (docIdMap cells1) s = idMapGet (docIdMap cells2) s := by
  rw [idMapGet_docIdMap, idMapGet_docIdMap]
  have hperm : cells1.reverse.Perm cells2.reverse :=
    (List.reverse_perm cells1).trans (hp.trans (List.reverse_perm cells2).symm)
  rw [find?_perm_unique _ _ _ hperm ?_]
  intro x hx y hy hpx hpy
  simp only [Bool.and_eq_true, decide_eq_true_eq] at hpx hpy
  rw [List.mem_reverse] at hx hy
  have hinj := List.inj_on_of_nodup_map hnd
  exact hinj (List.mem_filter.mpr ⟨hx, by simp [hpx.1]⟩)
    (List.mem_filter.mpr ⟨hy, by simp [hpy.1]⟩) (by rw [hpx.2, hpy.2])

theorem edgeStep_congr (m1 m2 : IdMap) (h : ∀ s, idMapGet m1 s = idMapGet m2 s)
    (cd : GraphCell) : edgeStep m1 cd = edgeStep m2 cd := by
  unfold edgeStep
  by_cases htp : cd.type = .edge
  · rw [if_pos htp, if_pos htp]
    cases cd.source with
    | none => rfl
    | some s =>
      cases cd.target with
      | none => rfl
      | some t => simp only [h]
  · rw [if_neg htp, if_neg htp]

/-- The edges created by an import do not depend on the order of the `cells`
array, provided vertex ids are unique. -/
theorem docNewEdges_perm (cells1 cells2 : List GraphCell) (hp : cells1.Perm cells2)
    (hnd : ((cells1.filter (fun cd => cd.type = .vertex)).map GraphCell.id).Nodup) :
    (docNewEdges cells1).Perm (docNewEdges cells2) := by
  unfold docNewEdges
  rw [show edgeStep (docIdMap cells1) = edgeStep (docIdMap cells2) from
    funext (edgeStep_congr _ _ (idMapGet_perm cells1 cells2 hp hnd))]
  exact hp.filterMap _

/-! ## Small glue lemmas for the claim theorems -/

theorem drop_append_cons (a : List Char) (c : Char) (b : List Char) :
    (a ++ c :: b).drop (a.length + 1) = b := by
  rw [show a.length + 1 = (a ++ [c]).length by simp,
    show a ++ c :: b = (a ++ [c]) ++ b by simp]
  exact List.drop_left _ _

theorem formatEntry_some_shape (kv : List Char × StyleValue) (seg : List Char)
    (h : formatEntry kv = some seg) :
    seg = kv.1 ++ '=' :: styleValueToString kv.2 ∧ kv.2 ≠ .undef ∧ kv.2 ≠ .null := by
  rcases kv with ⟨k, v⟩
  cases v with
  | bool b =>
    refine ⟨?_, by simp, by simp⟩
    injection h with h
    exact h.symm
  | num n =>
    refine ⟨?_, by simp, by simp⟩
    injection h with h
    exact h.symm
  | str w =>
    refine ⟨?_, by simp, by simp⟩
    injection h with h
    exact h.symm
  | undef => cases h
  | null => cases h

theorem jsAnd_pos (a b : JSValue) (h : jsTruthy a = true) : jsAnd a b = b := by
  unfold jsAnd
  rw [if_pos h]

theorem jsAnd_neg (a b : JSValue) (h : jsTruthy a = false) : jsAnd a b = a := by
  unfold jsAnd
  rw [if_neg (by simp [h])]

theorem jsIsTrue_of_falsy (v : JSValue) (h : jsTruthy v = false) :
    jsIsTrue v = false := by
  cases v with
  | bool b => cases b with
    | true => simp [jsTruthy] at h
    | false => rfl
  | undef => rfl
  | null => rfl
  | num n => rfl
  | str s => rfl
  | arr l => rfl
  | obj l => rfl

theorem filter_isLiveEdge_verts (l : List GraphCell) :
    (vertCellsOf l).filter isLiveEdge = [] := by
  unfold vertCellsOf
  induction l.filter (fun cd => cd.type = .vertex) with
  | nil => rfl
  | cons cd rest ih => simpa [isLiveEdge] using ih

theorem filter_isLiveEdge_edges (l : List LEdge) :
    ((l.map LiveCell.edge).filter isLiveEdge) = l.map LiveCell.edge := by
  induction l with
  | nil => rfl
  | cons e rest ih => simpa [isLiveEdge] using ih

theorem new_edge_mem (g : LiveGraph) (data : GraphData) (b : Bool) (e : LEdge)
    (h : LiveCell.edge e ∈ (importGraphFromJSON g data b).cells)
    (hnotbase : LiveCell.edge e ∉ (if b then [] else g.cells)) :
    e ∈ docNewEdges data.cells := by
  rw [importGraphFromJSON_cells] at h
  rcases List.mem_append.mp h with h1 | h1
  · rcases List.mem_append.mp h1 with h2 | h2
    · exact absurd h2 hnotbase
    · simp only [vertCellsOf, List.mem_map] at h2
      obtain ⟨cd, _, heq⟩ := h2
      cases heq
  · obtain ⟨e2, hmem, heq⟩ := List.mem_map.mp h1
    injection heq with heq
    exact heq ▸ hmem

theorem importPasses_eq (g : LiveGraph) (cells : List GraphCell) :
    importPasses g cells =
      { g with cells := g.cells ++ vertCellsOf cells
          ++ (docNewEdges cells).map LiveCell.edge } := by
  unfold importPasses docNewEdges
  rw [importPass1_eq, importPass2_eq]

theorem docIdMapFrom_skip_nonvert (m : IdMap) (pre post : List GraphCell)
    (ce : GraphCell) (h : ¬ce.type = .vertex) :
    docIdMapFrom m (pre ++ ce :: post) = docIdMapFrom m (pre ++ post) := by
  unfold docIdMapFrom
  rw [List.foldl_append, List.foldl_append, List.foldl_cons, if_neg h]

theorem vertCellsOf_skip_nonvert (pre post : List GraphCell) (ce : GraphCell)
    (h : ¬ce.type = .vertex) :
    vertCellsOf (pre ++ ce :: post) = vertCellsOf (pre ++ post) := by
  unfold vertCellsOf
  rw [List.filter_append, List.filter_append, List.filter_cons_of_neg (by simp [h])]

/-! ## Sample data used by the witnesses -/

def sampleG0 : LiveGraph :=
  { cells := [], defaultParentId := "1", scale := .fin 1 0, tx := .fin 0 0, ty := .fin 0 0 }

def sampleVA : GraphCell :=
  { id := "a", type := .vertex, value := "A", gx := .fin 0 0, gy := .fin 0 0,
    gw := .fin 100 0, gh := .fin 40 0, style := [] }

def sampleVB : GraphCell :=
  { id := "b", type := .vertex, value := "B", gx := .fin 200 0, gy := .fin 0 0,
    gw := .fin 100 0, gh := .fin 40 0, style := [] }

def sampleE1 : GraphCell :=
  { id := "e1", type := .edge, value := "", gx := .fin 0 0, gy := .fin 0 0,
    gw := .fin 0 0, gh := .fin 0 0, style := [], source := some "a", target := some "b" }

/-! # The claims -/

/-- C1, counterexample: the segment `" =v"` has a truthy key that trims to
the empty string; formatting emits `"=v"`, whose key is falsy, so the
binding is lost and the round trip fails on this input. -/
theorem c1_roundtrip_counterexample :
    parseStyle " =v" = [([], .str ['v'])] ∧
      parseStyle (formatStyle (parseStyle " =v")) ≠ parseStyle " =v" := by
  decide

/-- C1 (amended): for every string `s` whose parse contains no
empty-string key — equivalently, no segment of `s` has a nonempty key
consisting only of whitespace — parsing, formatting the resulting mapping
and parsing again returns exactly the same mapping, keys in the same
insertion order with the same coerced values. -/
theorem c1_roundtrip (s : String)
    (h : ∀ kv ∈ parseStyle s, kv.1 ≠ []) :
    parseStyle (formatStyle (parseStyle s)) = parseStyle s :=
  parse_format_wf (parseStyle s) (wf_parseStyleL s.data) h

theorem c1_roundtrip_witness :
    parseStyle (formatStyle (parseStyle "fillColor=red;rounded=true;fontSize=12.5"))
      = parseStyle "fillColor=red;rounded=true;fontSize=12.5" :=
  c1_roundtrip "fillColor=red;rounded=true;fontSize=12.5" (by decide)

/-- C2, counterexample: the destructuring `const [key, value] =
part.split('=')` keeps only the first two components, so `"k=a=b"` maps
`k` to `"a"`, not to `"a=b"` as the claim states. -/
theorem c2_parse_counterexample :
    parseStyle "k=a=b" = [(['k'], .str ['a'])] ∧
      parseStyle "k=a=b" ≠ [(['k'], .str ['a', '=', 'b'])] := by
  decide

/-- C2 (amended): `parseStyle` splits on `;`; in each segment the key is
the text before the first `=` and the value the text between the first and
the second `=` (text after a second `=` is discarded); a segment
contributes only when it contains an `=` and both texts are nonempty, and
key and value are trimmed before the value is coerced and stored. -/
theorem c2_parse_shape (s : String) :
    parseStyle s =
      if s.data = [] then []
      else
        (splitOnChar ';' s.data).foldl
          (fun st part =>
            if (part.takeWhile (fun c => decide (c ≠ '='))).length < part.length
                ∧ part.takeWhile (fun c => decide (c ≠ '=')) ≠ []
                ∧ (part.drop ((part.takeWhile (fun c => decide (c ≠ '='))).length + 1)).takeWhile
                    (fun c => decide (c ≠ '=')) ≠ [] then
              styleSet st (trimL (part.takeWhile (fun c => decide (c ≠ '='))))
                (parseStyleValue (trimL ((part.drop
                  ((part.takeWhile (fun c => decide (c ≠ '='))).length + 1)).takeWhile
                    (fun c => decide (c ≠ '=')))))
            else st)
          [] := by
  have hfun : parseStylePart = fun st part =>
      if (part.takeWhile (fun c => decide (c ≠ '='))).length < part.length
          ∧ part.takeWhile (fun c => decide (c ≠ '=')) ≠ []
          ∧ (part.drop ((part.takeWhile (fun c => decide (c ≠ '='))).length + 1)).takeWhile
              (fun c => decide (c ≠ '=')) ≠ [] then
        styleSet st (trimL (part.takeWhile (fun c => decide (c ≠ '='))))
          (parseStyleValue (trimL ((part.drop
            ((part.takeWhile (fun c => decide (c ≠ '='))).length + 1)).takeWhile
              (fun c => decide (c ≠ '=')))))
      else st :=
    funext fun st => funext fun part => parseStylePart_takeWhile st part
  show parseStyleL s.data = _
  unfold parseStyleL
  rw [hfun]

/-- C3: the coercion of `parseStyleValue`: the literal `"true"` becomes
the boolean `true` and `"false"` the boolean `false`; any other string on
which `Number` does not yield `NaN` becomes that number; any other string
on which it does yield `NaN` is kept as a string. -/
theorem c3_value_coercion (v : List Char) :
    parseStyleValue ['t', 'r', 'u', 'e'] = .bool true ∧
      parseStyleValue ['f', 'a', 'l', 's', 'e'] = .bool false ∧
      (jsIsNaN (jsToNumber v) = false → v ≠ ['t', 'r', 'u', 'e'] →
        v ≠ ['f', 'a', 'l', 's', 'e'] → parseStyleValue v = .num (jsToNumber v)) ∧
      (jsIsNaN (jsToNumber v) = true → v ≠ ['t', 'r', 'u', 'e'] →
        v ≠ ['f', 'a', 'l', 's', 'e'] → parseStyleValue v = .str v) := by
  refine ⟨by decide, by decide, ?_, ?_⟩
  · intro hn ht hf
    unfold parseStyleValue
    rw [if_neg ht, if_neg hf, if_pos hn]
  · intro hn ht hf
    unfold parseStyleValue
    rw [if_neg ht, if_neg hf, if_neg (by rw [hn]; simp)]

theorem c3_value_coercion_witness :
    parseStyleValue ['1', '2', '.', '5'] = .num (.fin 125 1) ∧
      parseStyleValue ['r', 'e', 'd'] = .str ['r', 'e', 'd'] := by
  constructor
  · rw [(c3_value_coercion ['1', '2', '.', '5']).2.2.1 (by decide) (by decide) (by decide)]
    decide
  · exact (c3_value_coercion ['r', 'e', 'd']).2.2.2 (by decide) (by decide) (by decide)

/-- C4: `formatStyle` emits exactly one `key=value` segment, value in its
string form, for each entry whose value is neither `undefined` nor `null`,
in the mapping's insertion order, joined with `;`. -/
theorem c4_format_shape (st : CellStyle) :
    formatStyleL st =
      joinSep ';'
        ((st.filter (fun kv => !(decide (kv.2 = .undef) || decide (kv.2 = .null)))).map
          (fun kv => kv.1 ++ '=' :: styleValueToString kv.2)) := by
  rw [formatStyleL_eq]
  congr 1
  induction st with
  | nil => rfl
  | cons kv rest ih =>
    rcases kv with ⟨k, v⟩
    cases v <;> simp [formatEntry, List.filter_cons, ih]

/-- C5: an edge cell is connected no matter where it sits in the `cells`
array — in particular before its endpoint vertices — because vertices are
created in a first pass and edges in a second; and with unique vertex ids
the multiset of live edges after an import does not depend on the order of
the `cells` array at all. -/
theorem c5_two_pass_order_independent :
    (∀ (g : LiveGraph) (b : Bool) (data : GraphData) (ce : GraphCell) (s t : String),
      ce ∈ data.cells → ce.type = .edge → ce.source = some s → ce.target = some t →
      s ≠ "" → t ≠ "" →
      (∃ vc ∈ data.cells, vc.type = .vertex ∧ vc.id = s) →
      (∃ vc ∈ data.cells, vc.type = .vertex ∧ vc.id = t) →
      ∃ e : LEdge, LiveCell.edge e ∈ (importGraphFromJSON g data b).cells ∧
        e.id = ce.id ∧ e.src.id = s ∧ e.tgt.id = t) ∧
    (∀ (g : LiveGraph) (b : Bool) (d1 d2 : GraphData), d1.cells.Perm d2.cells →
      ((d1.cells.filter (fun cd => cd.type = .vertex)).map GraphCell.id).Nodup →
      ((importGraphFromJSON g d1 b).cells.filter isLiveEdge).Perm
        ((importGraphFromJSON g d2 b).cells.filter isLiveEdge)) := by
  constructor
  · intro g b data ce s t hmem htp hs ht hsne htne hvs hvt
    obtain ⟨vs, vt, hstep, hvsid, hvtid⟩ :=
      edgeStep_fires data.cells ce s t htp hs ht hsne htne hvs hvt
    refine ⟨mkLEdge ce vs vt, ?_, rfl, hvsid, hvtid⟩
    rw [importGraphFromJSON_cells]
    refine List.mem_append.mpr (Or.inr ?_)
    exact List.mem_map_of_mem _ (List.mem_filterMap.mpr ⟨ce, hmem, hstep⟩)
  · intro g b d1 d2 hp hnd
    rw [importGraphFromJSON_cells, importGraphFromJSON_cells,
      List.filter_append, List.filter_append, List.filter_append, List.filter_append,
      filter_isLiveEdge_verts, filter_isLiveEdge_verts,
      filter_isLiveEdge_edges, filter_isLiveEdge_edges, List.append_nil]
    exact List.Perm.append (List.Perm.refl _)
      (List.Perm.map _ (docNewEdges_perm d1.cells d2.cells hp hnd))

theorem c5_two_pass_witness :
    (∃ e : LEdge,
      LiveCell.edge e ∈ (importGraphFromJSON sampleG0
        { cells := [sampleE1, sampleVA, sampleVB] } true).cells ∧
      e.id = "e1" ∧ e.src.id = "a" ∧ e.tgt.id = "b") :=
  c5_two_pass_order_independent.1 sampleG0 true
    { cells := [sampleE1, sampleVA, sampleVB] } sampleE1 "a" "b"
    (by decide) (by decide) (by decide) (by decide) (by decide) (by decide)
    ⟨sampleVA, by decide, by decide, by decide⟩
    ⟨sampleVB, by decide, by decide, by decide⟩

/-- C6: a live edge new to the import comes only from an edge cell with
truthy `source` and `target` ids both resolving to vertices made from
vertex cells of the same Document; an edge cell whose `source`/`target` is
absent or does not resolve contributes nothing (removing it leaves the
import's result unchanged — silently skipped, never an error); and such a
skipped edge's id is absent from a subsequent export when its id is not
shared with another cell. -/
theorem c6_dangling_edges_skipped :
    (∀ (g : LiveGraph) (b : Bool) (data : GraphData) (e : LEdge),
      LiveCell.edge e ∈ (importGraphFromJSON g data b).cells →
      LiveCell.edge e ∉ (if b then [] else g.cells) →
      ∃ ce ∈ data.cells, ce.type = .edge ∧
        ∃ s t, ce.source = some s ∧ ce.target = some t ∧ s ≠ "" ∧ t ≠ "" ∧
          (∃ vc ∈ data.cells, vc.type = .vertex ∧ vc.id = s ∧ e.src = mkLVertex vc) ∧
          (∃ vc ∈ data.cells, vc.type = .vertex ∧ vc.id = t ∧ e.tgt = mkLVertex vc) ∧
          e = mkLEdge ce e.src e.tgt) ∧
    (∀ (g : LiveGraph) (b : Bool) (vp : Option Viewport) (pre post : List GraphCell)
        (ce : GraphCell),
      ce.type = .edge →
      (ce.source = none ∨ ce.target = none ∨
        (∃ s, ce.source = some s ∧ idMapGet (docIdMap (pre ++ ce :: post)) s = none) ∨
        (∃ t, ce.target = some t ∧ idMapGet (docIdMap (pre ++ ce :: post)) t = none)) →
      importGraphFromJSON g ⟨pre ++ ce :: post, vp⟩ b
        = importGraphFromJSON g ⟨pre ++ post, vp⟩ b) ∧
    (∀ (g : LiveGraph) (data : GraphData) (ce : GraphCell),
      ce ∈ data.cells → ce.type = .edge →
      (ce.source = none ∨ ce.target = none ∨
        (∃ s, ce.source = some s ∧ idMapGet (docIdMap data.cells) s = none) ∨
        (∃ t, ce.target = some t ∧ idMapGet (docIdMap data.cells) t = none)) →
      (∀ other ∈ data.cells, other ≠ ce → other.id ≠ ce.id) →
      ∀ gc ∈ (exportGraphToJSON (importGraphFromJSON g data true)).cells,
        gc.id ≠ ce.id) := by
  refine ⟨?_, ?_, ?_⟩
  · intro g b data e hmem hnot
    have hnew := new_edge_mem g data b e hmem hnot
    obtain ⟨ce, hce, hstep⟩ := List.mem_filterMap.mp hnew
    obtain ⟨htp, s, t, vs, vt, hs, ht, hsne, htne, hms, hmt, heq⟩ :=
      edgeStep_some _ _ _ hstep
    obtain ⟨vcs, hvcs1, hvcs2, hvcs3, hvcs4⟩ := idMapGet_docIdMap_some _ _ _ hms
    obtain ⟨vct, hvct1, hvct2, hvct3, hvct4⟩ := idMapGet_docIdMap_some _ _ _ hmt
    subst heq
    exact ⟨ce, hce, htp, s, t, hs, ht, hsne, htne,
      ⟨vcs, hvcs1, hvcs2, hvcs3, hvcs4⟩, ⟨vct, hvct1, hvct2, hvct3, hvct4⟩, rfl⟩
  · intro g b vp pre post ce htp hcond
    have hnv : ¬ce.type = .vertex := by rw [htp]; intro h; cases h
    unfold importGraphFromJSON
    congr 1
    rw [importPasses_eq, importPasses_eq]
    have hmap : docIdMap (pre ++ ce :: post) = docIdMap (pre ++ post) :=
      docIdMapFrom_skip_nonvert [] pre post ce hnv
    have hnone : edgeStep (docIdMap (pre ++ ce :: post)) ce = none :=
      edgeStep_eq_none _ _ hcond
    have hverts := vertCellsOf_skip_nonvert pre post ce hnv
    have hedges : docNewEdges (pre ++ ce :: post) = docNewEdges (pre ++ post) := by
      unfold docNewEdges
      rw [List.filterMap_append, List.filterMap_append, List.filterMap_cons, hnone]
      rw [hmap]
    rw [hverts, hedges]
  · intro g data ce hce htp hcond huniq gc hgc
    rw [exportGraphToJSON_cells] at hgc
    obtain ⟨lc, hlc, rfl⟩ := List.mem_map.mp hgc
    rw [importGraphFromJSON_cells] at hlc
    rcases List.mem_append.mp hlc with h1 | h1
    · rcases List.mem_append.mp h1 with h2 | h2
      · simp at h2
      · simp only [vertCellsOf, List.mem_map] at h2
        obtain ⟨vc, hvc, rfl⟩ := h2
        have hvc2 := List.mem_filter.mp hvc
        have hvcne : vc ≠ ce := by
          intro e
          rw [e, htp] at hvc2
          simpa using hvc2.2
        rw [exportLive_id]
        exact huniq vc hvc2.1 hvcne
    · obtain ⟨e, he, rfl⟩ := List.mem_map.mp h1
      obtain ⟨ce2, hce2, hstep⟩ := List.mem_filterMap.mp he
      have hnone : edgeStep (docIdMap data.cells) ce = none := edgeStep_eq_none _ _ hcond
      have hne : ce2 ≠ ce := by
        intro e2
        rw [e2, hnone] at hstep
        cases hstep
      obtain ⟨_, s, t, vs, vt, _, _, _, _, _, _, heq⟩ := edgeStep_some _ _ _ hstep
      rw [exportLive_id, heq]
      exact huniq ce2 hce2 hne

theorem c6_dangling_witness :
    importGraphFromJSON
      { cells := [], defaultParentId := "1",
        scale := .fin 1 0, tx := .fin 0 0, ty := .fin 0 0 }
      ⟨[{ id := "a", type := .vertex, value := "A", gx := .fin 0 0, gy := .fin 0 0,
            gw := .fin 100 0, gh := .fin 40 0, style := [] },
          { id := "e1", type := .edge, value := "", gx := .fin 0 0, gy := .fin 0 0,
            gw := .fin 0 0, gh := .fin 0 0, style := [],
            source := some "a", target := some "zz" }], none⟩ true
    = importGraphFromJSON
      { cells := [], defaultParentId := "1",
        scale := .fin 1 0, tx := .fin 0 0, ty := .fin 0 0 }
      ⟨[{ id := "a", type := .vertex, value := "A", gx := .fin 0 0, gy := .fin 0 0,
            gw := .fin 100 0, gh := .fin 40 0, style := [] }], none⟩ true :=
  c6_dangling_edges_skipped.2.1 _ true none
    [{ id := "a", type := .vertex, value := "A", gx := .fin 0 0, gy := .fin 0 0,
       gw := .fin 100 0, gh := .fin 40 0, style := [] }] [] _
    (by decide)
    (Or.inr (Or.inr (Or.inr ⟨"zz", by decide, by decide⟩)))

/-- C7: `validateAIResponse` returns the boolean `true` exactly when the
response is truthy, its `diagram` field is truthy, `diagram.cells` is an
array and `description` is a string; the three example payloads of the
specification behave as stated. -/
theorem c7_validate_ai_response :
    (∀ r : JSValue,
      jsIsTrue (validateAIResponse r) = true ↔
        (jsTruthy r = true ∧ jsTruthy (jsGet r "diagram") = true ∧
          jsIsArray (jsGet (jsGet r "diagram") "cells") = true ∧
          jsTypeofIsString (jsGet r "description") = true)) ∧
    jsIsTrue (validateAIResponse
      (.obj [("diagram", .obj [("cells", .arr [])]), ("description", .str "ok")])) = true ∧
    jsIsTrue (validateAIResponse
      (.obj [("diagram", .obj []), ("description", .str "ok")])) = false ∧
    jsIsTrue (validateAIResponse (.obj [("description", .str "ok")])) = false := by
  refine ⟨?_, by decide, by decide, by decide⟩
  intro r
  unfold validateAIResponse
  by_cases h1 : jsTruthy r = true
  · rw [jsAnd_pos _ _ h1]
    by_cases h2 : jsTruthy (jsGet r "diagram") = true
    · rw [jsAnd_pos _ _ h2]
      cases harr : jsIsArray (jsGet (jsGet r "diagram") "cells")
      · rw [jsAnd_neg _ _ (by rfl)]
        simp [jsIsTrue, harr]
      · rw [jsAnd_pos _ _ (by rfl)]
        cases hstr : jsTypeofIsString (jsGet r "description")
        · simp [jsIsTrue, hstr]
        · simp [jsIsTrue, h1, h2, harr, hstr]
    · have h2f : jsTruthy (jsGet r "diagram") = false := by
        simpa using h2
      have hg : ∀ b, jsAnd (jsGet r "diagram") b = jsGet r "diagram" :=
        fun b => jsAnd_neg _ b h2f
      rw [hg, hg, jsIsTrue_of_falsy _ h2f]
      simp [h2f]
  · have h1f : jsTruthy r = false := by
      simpa using h1
    have hr : ∀ b, jsAnd r b = r := fun b => jsAnd_neg r b h1f
    rw [hr, hr, hr, jsIsTrue_of_falsy _ h1f]
    simp [h1f]

theorem c7_validate_witness :
    jsIsTrue (validateAIResponse
      (.obj [("diagram", .obj [("cells", .arr [.str "x"])]),
             ("description", .str "fine")])) = true :=
  (c7_validate_ai_response.1 _).mpr ⟨by decide, by decide, by decide, by decide⟩

/-- C8: `cellToJSON` never fails on a vertex or edge cell: with no
geometry record the exported geometry is all zeros, and with one present
each component is copied with falsy components (`0`, `-0`, `NaN`)
defaulting to `0`. -/
theorem cellToJSON_some_eq (c : MxCell) :
    cellToJSON (some c) =
      if (decide (c.isEdgeF = false) && decide (c.isVertexF = false)) = true then none
      else if c.isEdgeF = true then
        some { cellToJSONBase c with
          source := orUndef c.sourceId, target := orUndef c.targetId }
      else some (cellToJSONBase c) := rfl

theorem c8_geometry_defaulting (c : MxCell) (h : c.isEdgeF = true ∨ c.isVertexF = true) :
    ∃ gc, cellToJSON (some c) = some gc ∧
      (c.geometry = none →
        gc.gx = .fin 0 0 ∧ gc.gy = .fin 0 0 ∧ gc.gw = .fin 0 0 ∧ gc.gh = .fin 0 0) ∧
      (∀ x y w hh, c.geometry = some (x, y, w, hh) →
        gc.gx = (if jsNumFalsy x then .fin 0 0 else x) ∧
        gc.gy = (if jsNumFalsy y then .fin 0 0 else y) ∧
        gc.gw = (if jsNumFalsy w then .fin 0 0 else w) ∧
        gc.gh = (if jsNumFalsy hh then .fin 0 0 else hh)) := by
  rw [cellToJSON_some_eq, if_neg (by rcases h with h | h <;> simp [h])]
  by_cases he : c.isEdgeF = true
  · rw [if_pos he]
    refine ⟨_, rfl, ?_, ?_⟩
    · intro hg
      simp [cellToJSONBase, hg]
    · intro x y w hh hg
      simp [cellToJSONBase, hg, geomComp]
  · rw [if_neg he]
    refine ⟨_, rfl, ?_, ?_⟩
    · intro hg
      simp [cellToJSONBase, hg]
    · intro x y w hh hg
      simp [cellToJSONBase, hg, geomComp]

theorem c8_geometry_witness :
    ∃ gc, cellToJSON (some
      { isEdgeF := false, isVertexF := true, geometry := none,
        styleStr := some [], id := some "a", value := some "A",
        parentId := some "1", sourceId := none, targetId := none }) = some gc ∧
      ((none : Option (JsNum × JsNum × JsNum × JsNum)) = none →
        gc.gx = .fin 0 0 ∧ gc.gy = .fin 0 0 ∧ gc.gw = .fin 0 0 ∧ gc.gh = .fin 0 0) ∧
      (∀ x y w hh, (none : Option (JsNum × JsNum × JsNum × JsNum)) = some (x, y, w, hh) →
        gc.gx = (if jsNumFalsy x then .fin 0 0 else x) ∧
        gc.gy = (if jsNumFalsy y then .fin 0 0 else y) ∧
        gc.gw = (if jsNumFalsy w then .fin 0 0 else w) ∧
        gc.gh = (if jsNumFalsy hh then .fin 0 0 else hh)) :=
  c8_geometry_defaulting
    { isEdgeF := false, isVertexF := true, geometry := none,
      styleStr := some [], id := some "a", value := some "A",
      parentId := some "1", sourceId := none, targetId := none }
    (Or.inr rfl)

/-- C9, counterexample: with a key containing `;` the formatted string has
spurious segment boundaries, and parsing it back resurrects a binding for
the dropped key `a`, so the claim fails as stated over arbitrary
mappings. -/
theorem c9_empty_value_counterexample :
    formatStyle [(['a'], .str []), (['b', ';', 'a'], .str ['x'])] = "a=;b;a=x" ∧
      parseStyle (formatStyle [(['a'], .str []), (['b', ';', 'a'], .str ['x'])])
        = [(['a'], .str ['x'])] ∧
      ¬(∀ kv ∈ parseStyle (formatStyle [(['a'], .str []), (['b', ';', 'a'], .str ['x'])]),
          kv.1 ≠ ['a']) := by
  refine ⟨by decide, by decide, ?_⟩
  intro hall
  exact hall (['a'], .str ['x']) (by decide) rfl

/-- C9 (amended): for a mapping with distinct, trimmed keys free of `;`
and `=` and string values free of `;`, a key bound to the empty string is
emitted as the segment `key=` and that segment is dropped by `parseStyle`,
so the key is absent from the re-parse. -/
theorem c9_empty_value_lost (m : CellStyle) (k : List Char)
    (hmem : (k, .str []) ∈ m)
    (hkeys : ∀ kv ∈ m, trimL kv.1 = kv.1 ∧ ';' ∉ kv.1 ∧ '=' ∉ kv.1)
    (hvals : ∀ kv ∈ m, ∀ w, kv.2 = .str w → ';' ∉ w)
    (hnd : (m.map Prod.fst).Nodup) :
    (k ++ ['=']) ∈ splitOnChar ';' (formatStyleL m) ∧
      ∀ kv ∈ parseStyleL (formatStyleL m), kv.1 ≠ k := by
  have hsegsub : ∀ seg ∈ m.filterMap formatEntry,
      ∃ kv ∈ m, seg = kv.1 ++ '=' :: styleValueToString kv.2 := by
    intro seg hseg
    obtain ⟨kv, hkv, hfe⟩ := List.mem_filterMap.mp hseg
    exact ⟨kv, hkv, (formatEntry_some_shape kv seg hfe).1⟩
  have hksegmem : (k ++ ['=']) ∈ m.filterMap formatEntry := by
    refine List.mem_filterMap.mpr ⟨(k, .str []), hmem, ?_⟩
    rfl
  have hnosemi : ∀ seg ∈ m.filterMap formatEntry, ';' ∉ seg := by
    intro seg hseg hin
    obtain ⟨kv, hkv, rfl⟩ := hsegsub seg hseg
    rcases List.mem_append.mp hin with h1 | h1
    · exact (hkeys kv hkv).2.1 h1
    · rcases List.mem_cons.mp h1 with h2 | h2
      · exact absurd h2 (by decide)
      · rcases hv : kv.2 with b | n | w | _ | _
        · rw [hv] at h2
          rcases b <;> revert h2 <;> decide
        · rw [hv] at h2
          exact ((jsNumToString_good n ';' h2).2.1) rfl
        · rw [hv] at h2
          exact hvals kv hkv w hv h2
        · rw [hv] at h2
          revert h2
          decide
        · rw [hv] at h2
          revert h2
          decide
  have hne : m.filterMap formatEntry ≠ [] := by
    intro e
    rw [e] at hksegmem
    cases hksegmem
  have heachne : ∀ seg ∈ m.filterMap formatEntry, seg ≠ [] := by
    intro seg hseg
    obtain ⟨kv, _, rfl⟩ := hsegsub seg hseg
    simp
  have hsplit : splitOnChar ';' (formatStyleL m) = m.filterMap formatEntry := by
    rw [formatStyleL_eq]
    exact splitOnChar_joinSep ';' _ hne hnosemi
  refine ⟨by rw [hsplit]; exact hksegmem, ?_⟩
  intro kv hkv
  have hparse : parseStyleL (formatStyleL m)
      = (m.filterMap formatEntry).foldl parseStylePart [] := by
    unfold parseStyleL
    rw [if_neg (by rw [formatStyleL_eq]; exact joinSep_ne_nil ';' _ hne heachne), hsplit]
  rw [hparse] at hkv
  rcases mem_parse_foldl _ _ _ hkv with h1 | ⟨seg, hseg, hkey, hval⟩
  · cases h1
  · obtain ⟨kv2, hkv2, rfl⟩ := hsegsub seg hseg
    have htw : (kv2.1 ++ '=' :: styleValueToString kv2.2).takeWhile
        (fun c => decide (c ≠ '=')) = kv2.1 :=
      takeWhile_append_cons _ _ _ _
        (fun c hc => by simp; exact fun e => (hkeys kv2 hkv2).2.2 (e ▸ hc)) (by simp)
    rw [htw, (hkeys kv2 hkv2).1] at hkey
    intro hkk
    rw [hkk] at hkey
    have hkv2k : kv2 = (k, .str []) := by
      have hinj := List.inj_on_of_nodup_map hnd
      exact hinj hkv2 hmem hkey.symm
    rw [htw, hkv2k] at hval
    rw [show ((k, StyleValue.str []).1 ++
        '=' :: styleValueToString (k, StyleValue.str []).2) = k ++ '=' :: [] from rfl] at hval
    rw [drop_append_cons] at hval
    exact hval rfl

theorem c9_empty_value_witness :
    (['a'] ++ ['=']) ∈ splitOnChar ';'
        (formatStyleL [(['a'], .str []), (['b'], .num (.fin 1 0))]) ∧
      ∀ kv ∈ parseStyleL (formatStyleL [(['a'], .str []), (['b'], .num (.fin 1 0))]),
        kv.1 ≠ ['a'] :=
  c9_empty_value_lost [(['a'], .str []), (['b'], .num (.fin 1 0))] ['a']
    (by decide) (by decide)
    (by intro kv hkv w hw; simp at hkv; rcases hkv with rfl | rfl <;> simp at hw ⊢ <;>
      simp [hw])
    (by decide)

/-- C10: pass 2 resolves endpoints only in the id map built from the
Document's own vertex cells, so a newly created edge's endpoints are always
vertices made from the Document; with `clearExisting = false`, an edge
whose `source`/`target` id matches only a pre-existing live vertex (no
vertex cell of the Document has that id) is never connected to it. -/
theorem c10_idmap_only_from_document :
    (∀ (g : LiveGraph) (data : GraphData) (e : LEdge),
      LiveCell.edge e ∈ (importGraphFromJSON g data false).cells →
      LiveCell.edge e ∉ g.cells →
      (∃ vc ∈ data.cells, vc.type = .vertex ∧ e.src = mkLVertex vc) ∧
      (∃ vc ∈ data.cells, vc.type = .vertex ∧ e.tgt = mkLVertex vc)) ∧
    (∀ (g : LiveGraph) (data : GraphData) (s : String),
      (∀ vc ∈ data.cells, vc.type = .vertex → vc.id ≠ s) →
      ∀ e : LEdge, LiveCell.edge e ∈ (importGraphFromJSON g data false).cells →
        LiveCell.edge e ∉ g.cells → e.src.id ≠ s ∧ e.tgt.id ≠ s) := by
  have hprov : ∀ (g : LiveGraph) (data : GraphData) (e : LEdge),
      LiveCell.edge e ∈ (importGraphFromJSON g data false).cells →
      LiveCell.edge e ∉ g.cells →
      (∃ vc ∈ data.cells, vc.type = .vertex ∧ e.src = mkLVertex vc) ∧
      (∃ vc ∈ data.cells, vc.type = .vertex ∧ e.tgt = mkLVertex vc) := by
    intro g data e hmem hnot
    have hnew := new_edge_mem g data false e hmem (by simpa using hnot)
    obtain ⟨ce, hce, hstep⟩ := List.mem_filterMap.mp hnew
    obtain ⟨htp, s, t, vs, vt, hs, ht, hsne, htne, hms, hmt, heq⟩ :=
      edgeStep_some _ _ _ hstep
    obtain ⟨vcs, hvcs1, hvcs2, _, hvcs4⟩ := idMapGet_docIdMap_some _ _ _ hms
    obtain ⟨vct, hvct1, hvct2, _, hvct4⟩ := idMapGet_docIdMap_some _ _ _ hmt
    subst heq
    exact ⟨⟨vcs, hvcs1, hvcs2, hvcs4⟩, ⟨vct, hvct1, hvct2, hvct4⟩⟩
  refine ⟨hprov, ?_⟩
  intro g data s hnone e hmem hnot
  obtain ⟨⟨vcs, hvcs1, hvcs2, hsrc⟩, ⟨vct, hvct1, hvct2, htgt⟩⟩ :=
    hprov g data e hmem hnot
  constructor
  · rw [hsrc]
    exact hnone vcs hvcs1 hvcs2
  · rw [htgt]
    exact hnone vct hvct1 hvct2

def sampleVBs : GraphCell :=
  { id := "b", type := .vertex, value := "B", gx := .fin 0 0, gy := .fin 0 0,
    gw := .fin 10 0, gh := .fin 10 0, style := [] }

def sampleVCs : GraphCell :=
  { id := "c", type := .vertex, value := "C", gx := .fin 0 0, gy := .fin 0 0,
    gw := .fin 10 0, gh := .fin 10 0, style := [] }

def sampleEbc : GraphCell :=
  { id := "e1", type := .edge, value := "", gx := .fin 0 0, gy := .fin 0 0,
    gw := .fin 0 0, gh := .fin 0 0, style := [], source := some "b", target := some "c" }

def sampleLVa : LVertex :=
  { id := "a", value := "A", x := .fin 0 0, y := .fin 0 0,
    w := .fin 10 0, h := .fin 10 0, style := [] }

def sampleGwithA : LiveGraph :=
  { cells := [.vert sampleLVa], defaultParentId := "1",
    scale := .fin 1 0, tx := .fin 0 0, ty := .fin 0 0 }

theorem c10_preexisting_witness :
    ((mkLEdge sampleEbc (mkLVertex sampleVBs) (mkLVertex sampleVCs)).src.id ≠ "a" ∧
      (mkLEdge sampleEbc (mkLVertex sampleVBs) (mkLVertex sampleVCs)).tgt.id ≠ "a") :=
  c10_idmap_only_from_document.2 sampleGwithA
    { cells := [sampleVBs, sampleVCs, sampleEbc] } "a" (by decide)
    (mkLEdge sampleEbc (mkLVertex sampleVBs) (mkLVertex sampleVCs))
    (by
      rw [show (importGraphFromJSON sampleGwithA
          { cells := [sampleVBs, sampleVCs, sampleEbc] } false).cells
        = [.vert sampleLVa, .vert (mkLVertex sampleVBs), .vert (mkLVertex sampleVCs),
            .edge (mkLEdge sampleEbc (mkLVertex sampleVBs) (mkLVertex sampleVCs))]
        from by decide]
      simp)
    (by
      show LiveCell.edge (mkLEdge sampleEbc (mkLVertex sampleVBs) (mkLVertex sampleVCs))
        ∉ [LiveCell.vert sampleLVa]
      simp)

end DrawIo
